import Mathlib

/-!
Shallow embedding of the workflow-runner graph engine
(`src/types/workflow.ts`, `src/utils/validation.ts`, `src/stores/workflow.ts`,
`src/composables/useWorkflowExecution.ts`) and proofs about it.

Modelling conventions, used consistently below:
* JavaScript primitive values are modelled by `JSVal`; JS numbers are modelled
  as integers plus an explicit `NaN` (the engine's arithmetic on the claims'
  inputs is integer arithmetic, and `NaN` propagation/falsiness is modelled
  explicitly).  Objects nested inside data records are outside the modelled
  value domain.
* A JS record (`Record<string, unknown>`) is an association list
  `List (String × JSVal)` with first-match lookup and in-place update,
  matching JS object key semantics (insertion order preserved, overwrite
  keeps the original position).
* A JS `Map<string, string[]>` built by pushing `edge.target` onto the entry
  for `edge.source` is observationally the function `adj` below: per key it
  holds exactly the targets of edges with that source, in edge order.
* JS `Set` objects used only through `add`/`has`/`delete` are modelled as
  `List String` with membership.
* The unbounded `while` loops / recursion of the source are modelled with an
  explicit fuel parameter; the fuel chosen for each entry point is proven (or,
  for the execution engine, universally quantified) to be irrelevant to the
  stated properties.
-/

namespace WorkflowSpec

/-- JS numbers as used by the engine: integers plus NaN. -/
inductive JSNum where
  | int (n : Int)
  | nan
  deriving DecidableEq, Repr

/-- JS primitive values appearing in workflow data records and configs. -/
inductive JSVal where
  | num (x : JSNum)
  | str (s : String)
  | bool (b : Bool)
  | null
  | undef
  deriving DecidableEq, Repr

/-- A JS data record: association list with first-match lookup. -/
abbrev JSRec := List (String × JSVal)

/-- `record[key]`: JS property read, `undefined` when absent. -/
def getField (r : JSRec) (k : String) : JSVal :=
  match r.find? (fun p => decide (p.1 = k)) with
  | some p => p.2
  | none => JSVal.undef

/-- `record[key] = v`: JS property write (overwrite keeps position, else append). -/
def setField (r : JSRec) (k : String) (v : JSVal) : JSRec :=
  match r with
  | [] => [(k, v)]
  | (k', v') :: rest => if k' = k then (k, v) :: rest else (k', v') :: setField rest k v

/-- JS truthiness test (negated): `!v` for the modelled value domain. -/
def jsFalsy : JSVal → Bool
  | .num (.int n) => decide (n = 0)
  | .num .nan => true
  | .str s => decide (s = "")
  | .bool b => !b
  | .null => true
  | .undef => true

/-- ASCII whitespace (the whitespace relevant to `Number()` trimming here). -/
def wsChar (c : Char) : Bool :=
  c = ' ' || c = '\t' || c = '\n' || c = '\r'

/-- Trim leading and trailing whitespace from a character list. -/
def trimChars (l : List Char) : List Char :=
  ((l.dropWhile wsChar).reverse.dropWhile wsChar).reverse

/-- Value of a digit list, most significant first. -/
def digitsToNat (l : List Char) : Nat :=
  l.foldl (fun acc c => acc * 10 + (c.toNat - 48)) 0

/-- Parse a nonempty all-digit character list. -/
def parseDigits (l : List Char) : Option Nat :=
  if l ≠ [] ∧ l.all Char.isDigit then some (digitsToNat l) else none

/-- `Number(s)` on a string: trims, empty string is 0, optional-sign integer
literals parse, everything else is NaN (integer-literal fragment of JS). -/
def strToNum (s : String) : JSNum :=
  match trimChars s.data with
  | [] => .int 0
  | '-' :: rest =>
    match parseDigits rest with
    | some n => .int (-(n : Int))
    | none => .nan
  | '+' :: rest =>
    match parseDigits rest with
    | some n => .int (n : Int)
    | none => .nan
  | t =>
    match parseDigits t with
    | some n => .int (n : Int)
    | none => .nan

/-- `Number(v)` coercion for the modelled value domain. -/
def toNumber : JSVal → JSNum
  | .num x => x
  | .str s => strToNum s
  | .bool b => .int (if b then 1 else 0)
  | .null => .int 0
  | .undef => .nan

/-- `String(v)` coercion for the modelled value domain. -/
def jsToString : JSVal → String
  | .num (.int n) => toString n
  | .num .nan => "NaN"
  | .str s => s
  | .bool b => if b then "true" else "false"
  | .null => "null"
  | .undef => "undefined"

/-- JS `===` on the modelled value domain (`NaN === NaN` is false). -/
def jsStrictEq : JSVal → JSVal → Bool
  | .num (.int a), .num (.int b) => decide (a = b)
  | .str a, .str b => decide (a = b)
  | .bool a, .bool b => a == b
  | .null, .null => true
  | .undef, .undef => true
  | _, _ => false

/-- JS `*` (any NaN operand gives NaN). -/
def jsMul : JSNum → JSNum → JSNum
  | .int a, .int b => .int (a * b)
  | _, _ => .nan

/-- JS `+` on numbers (any NaN operand gives NaN). -/
def jsAdd : JSNum → JSNum → JSNum
  | .int a, .int b => .int (a + b)
  | _, _ => .nan

/-- JS `>` on numbers (false when either side is NaN). -/
def jsGt : JSNum → JSNum → Bool
  | .int a, .int b => decide (b < a)
  | _, _ => false

/-- JS `<` on numbers (false when either side is NaN). -/
def jsLt : JSNum → JSNum → Bool
  | .int a, .int b => decide (a < b)
  | _, _ => false

/-- JS `>=` on numbers (false when either side is NaN). -/
def jsGe : JSNum → JSNum → Bool
  | .int a, .int b => decide (b ≤ a)
  | _, _ => false

/-- JS `<=` on numbers (false when either side is NaN). -/
def jsLe : JSNum → JSNum → Bool
  | .int a, .int b => decide (a ≤ b)
  | _, _ => false

/-- Prefix test on character lists. -/
def startsWithChars : List Char → List Char → Bool
  | _, [] => true
  | [], _ :: _ => false
  | a :: as, b :: bs => a = b && startsWithChars as bs

/-- Contiguous-sublist test on character lists. -/
def includesChars : List Char → List Char → Bool
  | [], pat => pat.isEmpty
  | a :: rest, pat => startsWithChars (a :: rest) pat || includesChars rest pat

/-- `a.includes(b)` substring test on strings (`includes("")` is true). -/
def jsIncludes (a b : String) : Bool :=
  includesChars a.data b.data

/-- `toUpperCase()` (ASCII). -/
def jsToUpper (s : String) : String :=
  String.mk (s.data.map Char.toUpper)

/-- `toLowerCase()` (ASCII). -/
def jsToLower (s : String) : String :=
  String.mk (s.data.map Char.toLower)

/-- `Array.prototype.join(sep)`. -/
def joinSep (sep : String) : List String → String
  | [] => ""
  | [x] => x
  | x :: y :: xs => x ++ sep ++ joinSep sep (y :: xs)

/-- The node kinds of `NodeType` in `src/types/workflow.ts`. -/
inductive NodeType where
  | start
  | transform
  | condition
  | end_
  deriving DecidableEq, Repr

/-- `TransformOperation` in `src/types/workflow.ts`. -/
inductive TransformOperation where
  | uppercase
  | lowercase
  | append
  | prepend
  | multiply
  | add
  | replace
  deriving DecidableEq, Repr

/-- `ConditionOperator` in `src/types/workflow.ts`. -/
inductive ConditionOperator where
  | equals
  | notEquals
  | contains
  | greaterThan
  | lessThan
  | greaterThanOrEqual
  | lessThanOrEqual
  | isEmpty
  | isNotEmpty
  | isEven
  | isOdd
  | isDivisibleBy
  deriving DecidableEq, Repr

/-- The string value of a `TransformOperation` (used in log messages). -/
def TransformOperation.asString : TransformOperation → String
  | .uppercase => "uppercase"
  | .lowercase => "lowercase"
  | .append => "append"
  | .prepend => "prepend"
  | .multiply => "multiply"
  | .add => "add"
  | .replace => "replace"

/-- The string value of a `ConditionOperator` (used in log messages). -/
def ConditionOperator.asString : ConditionOperator → String
  | .equals => "equals"
  | .notEquals => "notEquals"
  | .contains => "contains"
  | .greaterThan => "greaterThan"
  | .lessThan => "lessThan"
  | .greaterThanOrEqual => "greaterThanOrEqual"
  | .lessThanOrEqual => "lessThanOrEqual"
  | .isEmpty => "isEmpty"
  | .isNotEmpty => "isNotEmpty"
  | .isEven => "isEven"
  | .isOdd => "isOdd"
  | .isDivisibleBy => "isDivisibleBy"

/-- The tagged union `NodeConfig` of `src/types/workflow.ts`
(`StartNodeConfig | TransformNodeConfig | ConditionNodeConfig | EndNodeConfig`). -/
inductive NodeConfig where
  | start (payload : JSRec)
  | transform (operation : TransformOperation) (field : String) (value : Option JSVal)
  | condition (field : String) (operator : ConditionOperator) (value : JSVal)
  | end_ (label : String)
  deriving DecidableEq, Repr

/-- The `data` payload of a `WorkflowNode`. -/
structure NodeData where
  label : String
  config : NodeConfig
  nodeType : NodeType
  deriving DecidableEq, Repr

/-- `WorkflowNode` of `src/types/workflow.ts` (position is presentation-only). -/
structure WorkflowNode where
  id : String
  type : NodeType
  position : Int × Int
  data : NodeData
  deriving DecidableEq, Repr

/-- `WorkflowEdge` of `src/types/workflow.ts`. -/
structure WorkflowEdge where
  id : String
  source : String
  target : String
  sourceHandle : Option String := none
  targetHandle : Option String := none
  animated : Bool := false
  deriving DecidableEq, Repr

/-- Adjacency of the edge list: all targets of edges with the given source,
in edge order.  This is the observable content of the `Map<string, string[]>`
adjacency lists built by `wouldCreateCycle`, `detectCycles` and `execute`. -/
def adj (edges : List WorkflowEdge) (v : String) : List String :=
  (edges.filter (fun e => decide (e.source = v))).map (fun e => e.target)

/-- One directed step along the edge list. -/
def stepB (edges : List WorkflowEdge) (x y : String) : Bool :=
  edges.any (fun e => decide (e.source = x) && decide (e.target = y))

/-- The step relation as a `Prop`. -/
def StepRel (edges : List WorkflowEdge) (x y : String) : Prop :=
  stepB edges x y = true

/-- `Reaches edges a b`: there is a directed path (possibly empty) from `a`
to `b` following the edges. -/
def Reaches (edges : List WorkflowEdge) : String → String → Prop :=
  Relation.ReflTransGen (StepRel edges)

/-- `CycleAt edges v`: there is a nonempty directed path from `v` back to `v`. -/
def CycleAt (edges : List WorkflowEdge) (v : String) : Prop :=
  Relation.TransGen (StepRel edges) v v

theorem mem_adj_iff {edges : List WorkflowEdge} {x y : String} :
    y ∈ adj edges x ↔ StepRel edges x y := by
  simp [adj, StepRel, stepB, List.any_eq_true, List.mem_filter, List.mem_map]
  constructor
  · rintro ⟨e, ⟨he, hs⟩, ht⟩
    exact ⟨e, he, hs, ht⟩
  · rintro ⟨e, he, hs, ht⟩
    exact ⟨e, ⟨he, hs⟩, ht⟩

/-- Result of `isValidConnection` (`{ valid: boolean; reason?: string }`). -/
structure ConnResult where
  valid : Bool
  reason : Option String := none
  deriving DecidableEq, Repr

/-- `isValidConnection` of `src/utils/validation.ts`: self-loop, duplicate,
End-source and Start-target checks, in source order, first failure wins. -/
def isValidConnection (sourceNode targetNode : WorkflowNode)
    (existingEdges : List WorkflowEdge) : ConnResult :=
  if sourceNode.id = targetNode.id then
    ⟨false, some "Cannot connect a node to itself"⟩
  else if existingEdges.any (fun e =>
      decide (e.source = sourceNode.id) && decide (e.target = targetNode.id)) then
    ⟨false, some "Connection already exists"⟩
  else if sourceNode.data.nodeType = NodeType.end_ then
    ⟨false, some "End nodes cannot have outgoing connections"⟩
  else if targetNode.data.nodeType = NodeType.start then
    ⟨false, some "Start nodes cannot have incoming connections"⟩
  else
    ⟨true, none⟩

/-- All node ids appearing in the edge list (sources and targets). -/
def edgeIds (edges : List WorkflowEdge) : List String :=
  edges.map (fun e => e.source) ++ edges.map (fun e => e.target)

/-- Number of ids of `edgeIds` not yet visited, weighted by out-degree: a
termination measure for the explicit-stack DFS of `wouldCreateCycle`
(each loop iteration strictly decreases `stack.length` plus this sum). -/
def wccMeasure (edges : List WorkflowEdge) (visited stack : List String) : Nat :=
  stack.length + 1 +
    Finset.sum ((edgeIds edges).toFinset \ visited.toFinset)
      (fun v => 1 + (adj edges v).length)

/-- The `while (stack.length > 0)` loop of `wouldCreateCycle`
(`src/utils/validation.ts`): explicit-stack DFS from the stack contents
looking for `sourceId`.  The JS loop is unbounded; the fuel below is only an
embedding device and `wouldCreateCycle` supplies a provably sufficient amount
(see `wouldCreateCycle_iff_reaches`). -/
def wccDfs (edges : List WorkflowEdge) (sourceId : String) :
    Nat → List String → List String → Bool
  | 0, _, _ => false
  | _ + 1, _, [] => false
  | fuel + 1, visited, current :: stack =>
    if current = sourceId then true
    else if current ∈ visited then wccDfs edges sourceId fuel visited stack
    else
      wccDfs edges sourceId fuel (current :: visited)
        ((((adj edges current).filter (fun n => decide (n ∉ current :: visited))).reverse)
          ++ stack)

/-- `wouldCreateCycle` of `src/utils/validation.ts`: DFS from `targetId`
over the existing edges looking for `sourceId`. -/
def wouldCreateCycle (sourceId targetId : String) (existingEdges : List WorkflowEdge) :
    Bool :=
  wccDfs existingEdges sourceId (wccMeasure existingEdges [] [targetId]) [] [targetId]

/-- `isValidConnectionWithCycleCheck` of `src/utils/validation.ts`. -/
def isValidConnectionWithCycleCheck (sourceNode targetNode : WorkflowNode)
    (existingEdges : List WorkflowEdge) : ConnResult :=
  let basicResult := isValidConnection sourceNode targetNode existingEdges
  if basicResult.valid = false then basicResult
  else if wouldCreateCycle sourceNode.id targetNode.id existingEdges then
    ⟨false, some "This connection would create an infinite loop"⟩
  else
    ⟨true, none⟩

theorem adj_eq_nil_of_not_mem_edgeIds {edges : List WorkflowEdge} {v : String}
    (h : v ∉ edgeIds edges) : adj edges v = [] := by
  unfold adj
  rw [List.map_eq_nil_iff]
  rw [List.filter_eq_nil_iff]
  intro e he
  simp only [decide_eq_true_eq]
  intro hev
  apply h
  unfold edgeIds
  exact List.mem_append.2 (Or.inl (List.mem_map.2 ⟨e, he, hev⟩))

theorem reach_mem_closed (edges : List WorkflowEdge) {V : List String}
    (hcl : ∀ v ∈ V, ∀ w, StepRel edges v w → w ∈ V) :
    ∀ {a b : String}, Reaches edges a b → a ∈ V → b ∈ V := by
  intro a b h
  induction h using Relation.ReflTransGen.head_induction_on with
  | refl => exact fun hb => hb
  | head hstep _ ih => exact fun ha => ih (hcl _ ha _ hstep)

theorem wccMeasure_visit_le (edges : List WorkflowEdge) (visited stack : List String)
    (current : String) (h2 : current ∉ visited) :
    wccMeasure edges (current :: visited)
      ((((adj edges current).filter (fun n => decide (n ∉ current :: visited))).reverse)
        ++ stack) + 1
      ≤ wccMeasure edges visited (current :: stack) := by
  classical
  unfold wccMeasure
  rw [List.length_append, List.length_reverse, List.length_cons]
  have hins : (current :: visited).toFinset = insert current visited.toFinset := by
    simp
  rw [hins]
  rw [Finset.sdiff_insert]
  by_cases hA : current ∈ (edgeIds edges).toFinset
  · have hmem : current ∈ (edgeIds edges).toFinset \ visited.toFinset :=
      Finset.mem_sdiff.2 ⟨hA, by simpa using h2⟩
    have hsum := Finset.add_sum_erase _ (fun v => 1 + (adj edges v).length) hmem
    simp only at hsum
    have hfle : ((adj edges current).filter
        (fun n => decide (n ∉ current :: visited))).length ≤ (adj edges current).length :=
      List.length_filter_le _ _
    omega
  · have hnotmem : current ∉ (edgeIds edges).toFinset \ visited.toFinset :=
      fun hc => hA (Finset.mem_sdiff.1 hc).1
    rw [Finset.erase_eq_of_not_mem hnotmem]
    have hadj : adj edges current = [] :=
      adj_eq_nil_of_not_mem_edgeIds (fun hc => hA (List.mem_toFinset.2 hc))
    rw [hadj]
    simp only [List.filter_nil, List.reverse_nil, List.length_nil]
    omega

theorem wccDfs_sound (edges : List WorkflowEdge) (sourceId : String) :
    ∀ (fuel : Nat) (visited stack : List String),
      wccDfs edges sourceId fuel visited stack = true →
      ∃ x ∈ stack, Reaches edges x sourceId := by
  intro fuel
  induction fuel with
  | zero =>
    intro visited stack h
    simp [wccDfs] at h
  | succ fuel ih =>
    intro visited stack h
    cases stack with
    | nil => simp [wccDfs] at h
    | cons current stack =>
      by_cases h1 : current = sourceId
      · subst h1
        exact ⟨current, List.mem_cons_self _ _, Relation.ReflTransGen.refl⟩
      · by_cases h2 : current ∈ visited
        · rw [wccDfs, if_neg h1, if_pos h2] at h
          obtain ⟨x, hx, hr⟩ := ih visited stack h
          exact ⟨x, List.mem_cons_of_mem _ hx, hr⟩
        · rw [wccDfs, if_neg h1, if_neg h2] at h
          obtain ⟨x, hx, hr⟩ := ih _ _ h
          rcases List.mem_append.1 hx with hx1 | hx2
          · have hxadj : x ∈ adj edges current :=
              (List.mem_filter.1 (List.mem_reverse.1 hx1)).1
            have hstep : StepRel edges current x := mem_adj_iff.1 hxadj
            exact ⟨current, List.mem_cons_self _ _, Relation.ReflTransGen.head hstep hr⟩
          · exact ⟨x, List.mem_cons_of_mem _ hx2, hr⟩

theorem wccDfs_complete (edges : List WorkflowEdge) (sourceId : String) :
    ∀ (fuel : Nat) (visited stack : List String),
      wccMeasure edges visited stack ≤ fuel →
      (∀ v ∈ visited, ∀ w, StepRel edges v w → w ∈ visited ∨ w ∈ stack) →
      sourceId ∉ visited →
      (∃ x, (x ∈ stack ∨ x ∈ visited) ∧ Reaches edges x sourceId) →
      wccDfs edges sourceId fuel visited stack = true := by
  intro fuel
  induction fuel with
  | zero =>
    intro visited stack hm _ _ _
    exfalso
    unfold wccMeasure at hm
    omega
  | succ fuel ih =>
    intro visited stack hm hclosed hsrc hwit
    cases stack with
    | nil =>
      exfalso
      obtain ⟨x, hx, hr⟩ := hwit
      rcases hx with hx | hx
      · simp at hx
      · have hcl : ∀ v ∈ visited, ∀ w, StepRel edges v w → w ∈ visited := by
          intro v hv w hw
          rcases hclosed v hv w hw with h | h
          · exact h
          · simp at h
        exact hsrc (reach_mem_closed edges hcl hr hx)
    | cons current stack =>
      by_cases h1 : current = sourceId
      · rw [wccDfs, if_pos h1]
      · by_cases h2 : current ∈ visited
        · rw [wccDfs, if_neg h1, if_pos h2]
          apply ih
          · have : wccMeasure edges visited (current :: stack)
                = wccMeasure edges visited stack + 1 := by
              unfold wccMeasure
              rw [List.length_cons]
              omega
            omega
          · intro v hv w hw
            rcases hclosed v hv w hw with h | h
            · exact Or.inl h
            · rcases List.mem_cons.1 h with h | h
              · exact Or.inl (h ▸ h2)
              · exact Or.inr h
          · exact hsrc
          · obtain ⟨x, hx, hr⟩ := hwit
            refine ⟨x, ?_, hr⟩
            rcases hx with hx | hx
            · rcases List.mem_cons.1 hx with h | hx
              · exact Or.inr (h ▸ h2)
              · exact Or.inl hx
            · exact Or.inr hx
        · rw [wccDfs, if_neg h1, if_neg h2]
          apply ih
          · have hdec := wccMeasure_visit_le edges visited stack current h2
            omega
          · intro v hv w hw
            rcases List.mem_cons.1 hv with hv | hv
            · subst hv
              have hwadj : w ∈ adj edges v := mem_adj_iff.2 hw
              by_cases hwv : w ∈ v :: visited
              · exact Or.inl hwv
              · refine Or.inr (List.mem_append.2 (Or.inl ?_))
                rw [List.mem_reverse]
                exact List.mem_filter.2 ⟨hwadj, by simpa using hwv⟩
            · rcases hclosed v hv w hw with h | h
              · exact Or.inl (List.mem_cons_of_mem _ h)
              · rcases List.mem_cons.1 h with h | h
                · exact Or.inl (h ▸ List.mem_cons_self _ _)
                · exact Or.inr (List.mem_append.2 (Or.inr h))
          · intro hmem
            rcases List.mem_cons.1 hmem with h | hmem
            · exact h1 h.symm
            · exact hsrc hmem
          · obtain ⟨x, hx, hr⟩ := hwit
            refine ⟨x, ?_, hr⟩
            rcases hx with hx | hx
            · rcases List.mem_cons.1 hx with h | hx
              · exact Or.inr (h ▸ List.mem_cons_self _ _)
              · exact Or.inl (List.mem_append.2 (Or.inr hx))
            · exact Or.inr (List.mem_cons_of_mem _ hx)

/-- Full characterisation of `wouldCreateCycle`: it returns `true` exactly
when a directed path from `targetId` to `sourceId` already exists. -/
theorem wouldCreateCycle_iff_reaches (sourceId targetId : String)
    (edges : List WorkflowEdge) :
    wouldCreateCycle sourceId targetId edges = true ↔ Reaches edges targetId sourceId := by
  constructor
  · intro h
    obtain ⟨x, hx, hr⟩ := wccDfs_sound edges sourceId _ [] [targetId] h
    simp at hx
    exact hx ▸ hr
  · intro h
    apply wccDfs_complete
    · exact le_refl _
    · intro v hv
      simp at hv
    · simp
    · exact ⟨targetId, Or.inl (by simp), h⟩

/-- Result type of `detectCycles`. -/
structure CycleDetectionResult where
  hasCycle : Bool
  cyclePath : List String
  deriving DecidableEq, Repr

/-- The mutable state of the `detectCycles` DFS: the `visited` set, the
`recursionStack` set (`gray`), and the `parent` map (newest binding first,
matching `Map.set` overwrite followed by `Map.get`). -/
structure DetState where
  visited : List String
  gray : List String
  parent : List (String × String)
  deriving DecidableEq, Repr

/-- The `for (const neighbor of neighbors)` loop inside the `dfs` helper of
`detectCycles`: returns the head of a found cycle (a gray neighbor) or `none`,
threading the DFS state.  Recursive descent is supplied as `visitF`. -/
def dcNeighbors (visitF : String → DetState → Option String × DetState) (u : String) :
    List String → DetState → Option String × DetState
  | [], st => (none, st)
  | n :: ns, st =>
    if n ∈ st.gray then (some n, { st with parent := (n, u) :: st.parent })
    else if n ∈ st.visited then dcNeighbors visitF u ns st
    else
      match visitF n { st with parent := (n, u) :: st.parent } with
      | (some c, st2) => (some c, st2)
      | (none, st2) => dcNeighbors visitF u ns st2

/-- The recursive `dfs` helper of `detectCycles` (`src/utils/validation.ts`):
mark the node visited and gray, scan its neighbors, then remove it from the
gray set.  The JS recursion is unbounded; the fuel is an embedding device and
`detectCycles` supplies a provably sufficient amount. -/
def dcVisit (edges : List WorkflowEdge) : Nat → String → DetState → Option String × DetState
  | 0, _, st => (none, st)
  | fuel + 1, u, st =>
    let st1 : DetState := { st with visited := u :: st.visited, gray := u :: st.gray }
    match dcNeighbors (fun n st' => dcVisit edges fuel n st') u (adj edges u) st1 with
    | (some c, st2) => (some c, st2)
    | (none, st2) => (none, { st2 with gray := st2.gray.erase u })

/-- The `for (const node of nodes)` loop of `detectCycles`: DFS from every
not-yet-visited node, returning the cycle head and the parent map at the
moment the first cycle is found. -/
def dcLoop (edges : List WorkflowEdge) (fuel : Nat) :
    List String → DetState → Option (String × List (String × String))
  | [], _ => none
  | nid :: rest, st =>
    if nid ∈ st.visited then dcLoop edges fuel rest st
    else
      match dcVisit edges fuel nid st with
      | (some c, st2) => some (c, st2.parent)
      | (none, st2) => dcLoop edges fuel rest st2

/-- `parent.get(k)` on the parent map. -/
def parentGet (par : List (String × String)) (k : String) : Option String :=
  (par.find? (fun p => decide (p.1 = k))).map (fun p => p.2)

/-- The `while (current && current !== cycleStart)` reconstruction loop of
`detectCycles` (unshifting onto the front of the accumulated path).  The JS
loop walks finitely many parent links; fuel `par.length + 1` is supplied. -/
def reconLoop (par : List (String × String)) (cycleStart : String) :
    Nat → Option String → List String → List String
  | 0, _, acc => acc
  | _ + 1, none, acc => acc
  | fuel + 1, some c, acc =>
    if c = "" then acc
    else if c = cycleStart then acc
    else reconLoop par cycleStart fuel (parentGet par c) (c :: acc)

/-- Cycle path reconstruction of `detectCycles`: start from `[cycleStart]`,
unshift parents until hitting `cycleStart` (or a falsy/absent parent), then
unshift `cycleStart` once more. -/
def reconstructPath (cycleStart : String) (par : List (String × String)) : List String :=
  cycleStart :: reconLoop par cycleStart (par.length + 1) (parentGet par cycleStart) [cycleStart]

/-- All node ids relevant to `detectCycles`: supplied nodes plus edge
endpoints (DFS can walk onto ids that are edge targets only). -/
def allIds (nodes : List WorkflowNode) (edges : List WorkflowEdge) : List String :=
  nodes.map (fun n => n.id) ++ edgeIds edges

/-- `detectCycles` of `src/utils/validation.ts`: white/gray/black DFS over all
supplied nodes with cycle-path reconstruction via the parent map. -/
def detectCycles (nodes : List WorkflowNode) (edges : List WorkflowEdge) :
    CycleDetectionResult :=
  match dcLoop edges ((allIds nodes edges).length + 1) (nodes.map (fun n => n.id))
      ⟨[], [], []⟩ with
  | none => ⟨false, []⟩
  | some (c, par) => ⟨true, reconstructPath c par⟩

/-- The invariant of the `detectCycles` DFS state: gray nodes are visited,
black (visited, non-gray) nodes have all successors visited, and no black
node reaches a cycle. -/
structure DetInv (edges : List WorkflowEdge) (st : DetState) : Prop where
  graySub : ∀ g ∈ st.gray, g ∈ st.visited
  blackClosed : ∀ b ∈ st.visited, b ∉ st.gray → ∀ w, StepRel edges b w → w ∈ st.visited
  blackSafe : ∀ b ∈ st.visited, b ∉ st.gray → ∀ v, Reaches edges b v → ¬ CycleAt edges v

/-- Precondition of a `dcVisit` call: the node is a fresh id of the universe
`U`, the remaining budget `B` exceeds the number of unvisited ids, the DFS
invariant holds, and every gray node reaches the node about to be visited. -/
def VisitPre (edges : List WorkflowEdge) (U : Finset String) (B : Nat) (u : String)
    (st : DetState) : Prop :=
  u ∈ U ∧ u ∉ st.visited ∧ (U \ st.visited.toFinset).card < B ∧ DetInv edges st ∧
    ∀ g ∈ st.gray, Reaches edges g u

/-- Postcondition of a `dcVisit` call: the visited set only grows and gains
`u`; on a `none` result the gray set is restored, the invariant holds again
and `u` ended up black; on a `some` result the graph has a cycle. -/
def VisitPost (edges : List WorkflowEdge) (u : String) (st : DetState)
    (p : Option String × DetState) : Prop :=
  (st.visited ⊆ p.2.visited ∧ u ∈ p.2.visited) ∧
  (p.1 = none → p.2.gray = st.gray ∧ DetInv edges p.2 ∧ u ∉ p.2.gray) ∧
  (∀ c, p.1 = some c → ∃ v, CycleAt edges v)

theorem count_le_of_visited_subset {U : Finset String} {v v' : List String} (h : v ⊆ v') :
    (U \ v'.toFinset).card ≤ (U \ v.toFinset).card :=
  Finset.card_le_card
    (Finset.sdiff_subset_sdiff (Finset.Subset.refl U)
      (fun _ hx => List.mem_toFinset.2 (h (List.mem_toFinset.1 hx))))

theorem count_visit_lt {U : Finset String} {vis : List String} {u : String}
    (hu : u ∈ U) (hnv : u ∉ vis) :
    (U \ (u :: vis).toFinset).card < (U \ vis.toFinset).card := by
  have h1 : (u :: vis).toFinset = insert u vis.toFinset := by simp
  rw [h1, Finset.sdiff_insert]
  have hmem : u ∈ U \ vis.toFinset := Finset.mem_sdiff.2 ⟨hu, by simpa using hnv⟩
  have h2 := Finset.card_erase_of_mem hmem
  have hpos : 0 < (U \ vis.toFinset).card := Finset.card_pos.2 ⟨u, hmem⟩
  omega

theorem dcNeighbors_spec (edges : List WorkflowEdge) (U : Finset String)
    (hU : ∀ x y, StepRel edges x y → y ∈ U) (B : Nat)
    (visitF : String → DetState → Option String × DetState)
    (hvisit : ∀ n st, VisitPre edges U B n st → VisitPost edges n st (visitF n st))
    (u : String) :
    ∀ (ns : List String) (st : DetState),
      DetInv edges st → u ∈ st.visited → u ∈ st.gray →
      (∀ g ∈ st.gray, Reaches edges g u) →
      (∀ n ∈ ns, StepRel edges u n) →
      (U \ st.visited.toFinset).card < B →
      st.visited ⊆ (dcNeighbors visitF u ns st).2.visited ∧
      ((dcNeighbors visitF u ns st).1 = none →
        (dcNeighbors visitF u ns st).2.gray = st.gray ∧
        DetInv edges (dcNeighbors visitF u ns st).2 ∧
        ∀ n ∈ ns, n ∈ (dcNeighbors visitF u ns st).2.visited ∧
          n ∉ (dcNeighbors visitF u ns st).2.gray) ∧
      (∀ c, (dcNeighbors visitF u ns st).1 = some c → ∃ v, CycleAt edges v) := by
  intro ns
  induction ns with
  | nil =>
    intro st hinv huv hug hgr hns hcount
    refine ⟨fun x hx => hx, fun _ => ⟨rfl, hinv, by simp⟩, fun c hc => by simp [dcNeighbors] at hc⟩
  | cons n ns ih =>
    intro st hinv huv hug hgr hns hcount
    by_cases hg : n ∈ st.gray
    · -- gray neighbor: a cycle is reported
      simp only [dcNeighbors, if_pos hg]
      refine ⟨fun x hx => hx, fun h => by simp at h, fun c _ => ?_⟩
      exact ⟨n, Relation.TransGen.tail' (hgr n hg) (hns n (List.mem_cons_self _ _))⟩
    · by_cases hv : n ∈ st.visited
      · -- already-visited (black) neighbor: skip
        simp only [dcNeighbors, if_neg hg, if_pos hv]
        obtain ⟨hmono, hnone, hsome⟩ :=
          ih st hinv huv hug hgr (fun m hm => hns m (List.mem_cons_of_mem _ hm)) hcount
        refine ⟨hmono, fun h => ?_, hsome⟩
        obtain ⟨hgray, hinv2, hmem⟩ := hnone h
        refine ⟨hgray, hinv2, fun m hm => ?_⟩
        rcases List.mem_cons.1 hm with hmn | hm
        · subst hmn
          exact ⟨hmono hv, by rw [hgray]; exact hg⟩
        · exact hmem m hm
      · -- fresh neighbor: recursive visit
        simp only [dcNeighbors, if_neg hg, if_neg hv]
        have hpre : VisitPre edges U B n { st with parent := (n, u) :: st.parent } := by
          refine ⟨hU u n (hns n (List.mem_cons_self _ _)), hv, hcount, ?_, ?_⟩
          · exact ⟨hinv.graySub, hinv.blackClosed, hinv.blackSafe⟩
          · intro g hgmem
            exact Relation.ReflTransGen.tail (hgr g hgmem) (hns n (List.mem_cons_self _ _))
        have hpost := hvisit n _ hpre
        cases hres : visitF n { st with parent := (n, u) :: st.parent } with
        | mk res st2 =>
          rw [hres] at hpost
          obtain ⟨⟨hmono1, hnvis⟩, hnone1, hsome1⟩ := hpost
          cases res with
          | some c =>
            simp only []
            exact ⟨fun x hx => hmono1 hx, fun h => by simp at h,
              fun c' hc' => hsome1 c rfl⟩
          | none =>
            simp only []
            obtain ⟨hgray2, hinv2, hng2⟩ := hnone1 rfl
            have huv2 : u ∈ st2.visited := hmono1 huv
            have hug2 : u ∈ st2.gray := by rw [hgray2]; exact hug
            have hgr2 : ∀ g ∈ st2.gray, Reaches edges g u := by
              rw [hgray2]; exact hgr
            have hcount2 : (U \ st2.visited.toFinset).card < B :=
              lt_of_le_of_lt (count_le_of_visited_subset hmono1) hcount
            obtain ⟨hmono3, hnone3, hsome3⟩ :=
              ih st2 hinv2 huv2 hug2 hgr2
                (fun m hm => hns m (List.mem_cons_of_mem _ hm)) hcount2
            refine ⟨fun x hx => hmono3 (hmono1 hx), fun h => ?_, hsome3⟩
            obtain ⟨hgray3, hinv3, hmem3⟩ := hnone3 h
            refine ⟨by rw [hgray3, hgray2], hinv3, fun m hm => ?_⟩
            rcases List.mem_cons.1 hm with hmn | hm
            · subst hmn
              refine ⟨hmono3 hnvis, ?_⟩
              rw [hgray3, hgray2]
              intro hmg
              exact hv (hinv.graySub m hmg)
            · exact hmem3 m hm

theorem dcVisit_spec (edges : List WorkflowEdge) (U : Finset String)
    (hU : ∀ x y, StepRel edges x y → y ∈ U) :
    ∀ (fuel : Nat) (u : String) (st : DetState),
      VisitPre edges U fuel u st → VisitPost edges u st (dcVisit edges fuel u st) := by
  intro fuel
  induction fuel with
  | zero =>
    intro u st hpre
    exact absurd hpre.2.2.1 (by omega)
  | succ fuel ih =>
    intro u st hpre
    obtain ⟨huU, hunv, hcount, hinv, hgr⟩ := hpre
    have hung : u ∉ st.gray := fun h => hunv (hinv.graySub u h)
    have hinv1 : DetInv edges { st with visited := u :: st.visited, gray := u :: st.gray } := by
      refine ⟨?_, ?_, ?_⟩
      · intro g hgmem
        rcases List.mem_cons.1 hgmem with h | h
        · exact h ▸ List.mem_cons_self _ _
        · exact List.mem_cons_of_mem _ (hinv.graySub g h)
      · intro b hb hbg w hw
        rcases List.mem_cons.1 hb with h | h
        · exact absurd (h ▸ List.mem_cons_self u st.gray) hbg
        · have hbg' : b ∉ st.gray := fun hh => hbg (List.mem_cons_of_mem _ hh)
          exact List.mem_cons_of_mem _ (hinv.blackClosed b h hbg' w hw)
      · intro b hb hbg v hv
        rcases List.mem_cons.1 hb with h | h
        · exact absurd (h ▸ List.mem_cons_self u st.gray) hbg
        · have hbg' : b ∉ st.gray := fun hh => hbg (List.mem_cons_of_mem _ hh)
          exact hinv.blackSafe b h hbg' v hv
    have hcount1 :
        (U \ ({ st with visited := u :: st.visited, gray := u :: st.gray } :
          DetState).visited.toFinset).card < fuel := by
      have hlt := @count_visit_lt U st.visited u huU hunv
      simp only [] at hlt ⊢
      omega
    have hgr1 : ∀ g ∈ ({ st with visited := u :: st.visited, gray := u :: st.gray } :
        DetState).gray, Reaches edges g u := by
      intro g hgmem
      rcases List.mem_cons.1 hgmem with h | h
      · exact h ▸ Relation.ReflTransGen.refl
      · exact hgr g h
    have hN := dcNeighbors_spec edges U hU fuel
      (fun n st' => dcVisit edges fuel n st') (fun n st' hp => ih n st' hp) u
      (adj edges u) { st with visited := u :: st.visited, gray := u :: st.gray }
      hinv1 (List.mem_cons_self _ _) (List.mem_cons_self _ _) hgr1
      (fun n hn => mem_adj_iff.1 hn) hcount1
    simp only [dcVisit]
    cases hres : dcNeighbors (fun n st' => dcVisit edges fuel n st') u (adj edges u)
        { st with visited := u :: st.visited, gray := u :: st.gray } with
    | mk res st2 =>
      rw [hres] at hN
      obtain ⟨hmono, hnone, hsome⟩ := hN
      cases res with
      | some c =>
        simp only []
        refine ⟨⟨fun x hx => hmono (List.mem_cons_of_mem _ hx),
          hmono (List.mem_cons_self _ _)⟩, fun h => by simp at h,
          fun c' hc' => hsome c rfl⟩
      | none =>
        simp only []
        obtain ⟨hgray2, hinv2, hmem2⟩ := hnone rfl
        have hgray2' : st2.gray = u :: st.gray := hgray2
        refine ⟨⟨fun x hx => hmono (List.mem_cons_of_mem _ hx),
          hmono (List.mem_cons_self _ _)⟩, fun _ => ⟨?_, ?_, ?_⟩, fun c hc => by simp at hc⟩
        · -- gray restored
          simp only [hgray2', List.erase_cons_head]
        · -- invariant after blackening u
          have hvisu : u ∈ st2.visited := hmono (List.mem_cons_self _ _)
          have hgfinal : st2.gray.erase u = st.gray := by
            rw [hgray2', List.erase_cons_head]
          refine ⟨?_, ?_, ?_⟩
          · intro g hgmem
            simp only [hgfinal] at hgmem
            exact hmono (List.mem_cons_of_mem _ (hinv.graySub g hgmem))
          · intro b hb hbg w hw
            simp only [hgfinal] at hbg ⊢
            simp only [] at hb
            by_cases hbu : b = u
            · subst hbu
              exact (hmem2 w (mem_adj_iff.2 hw)).1
            · have hbg2 : b ∉ st2.gray := by
                rw [hgray2']
                intro hh
                rcases List.mem_cons.1 hh with h | h
                · exact hbu h
                · exact hbg h
              exact hinv2.blackClosed b hb hbg2 w hw
          · intro b hb hbg v hv hcyc
            simp only [hgfinal] at hbg
            simp only [] at hb
            by_cases hbu : b = u
            · subst hbu
              rcases Relation.ReflTransGen.cases_head hv with heq | ⟨w, hstep, hw⟩
              · -- v = b: the cycle starts at the freshly blackened node
                subst heq
                obtain ⟨w, hstep, hw⟩ := Relation.TransGen.head'_iff.1 hcyc
                have hwmem := hmem2 w (mem_adj_iff.2 hstep)
                exact hinv2.blackSafe w hwmem.1 hwmem.2 b hw hcyc
              · have hwmem := hmem2 w (mem_adj_iff.2 hstep)
                exact hinv2.blackSafe w hwmem.1 hwmem.2 v hw hcyc
            · have hbg2 : b ∉ st2.gray := by
                rw [hgray2']
                intro hh
                rcases List.mem_cons.1 hh with h | h
                · exact hbu h
                · exact hbg h
              exact hinv2.blackSafe b hb hbg2 v hv hcyc
        · -- u is black in the final state
          rw [hgray2', List.erase_cons_head]
          exact hung

theorem dcLoop_spec (edges : List WorkflowEdge) (U : Finset String)
    (hU : ∀ x y, StepRel edges x y → y ∈ U) (fuel : Nat) (hfuel : U.card < fuel) :
    ∀ (ids : List String) (st : DetState),
      DetInv edges st → st.gray = [] → (∀ i ∈ ids, i ∈ U) →
      (∀ r, dcLoop edges fuel ids st = some r → ∃ v, CycleAt edges v) ∧
      (dcLoop edges fuel ids st = none →
        ∃ st', st.visited ⊆ st'.visited ∧ DetInv edges st' ∧ st'.gray = [] ∧
          ∀ i ∈ ids, i ∈ st'.visited) := by
  intro ids
  induction ids with
  | nil =>
    intro st hinv hgray _
    exact ⟨fun r hr => by simp [dcLoop] at hr,
      fun _ => ⟨st, fun x hx => hx, hinv, hgray, by simp⟩⟩
  | cons nid rest ih =>
    intro st hinv hgray hids
    by_cases hvis : nid ∈ st.visited
    · simp only [dcLoop, if_pos hvis]
      obtain ⟨hsome, hnone⟩ := ih st hinv hgray (fun i hi => hids i (List.mem_cons_of_mem _ hi))
      refine ⟨hsome, fun h => ?_⟩
      obtain ⟨st', hmono, hinv', hgray', hmem'⟩ := hnone h
      refine ⟨st', hmono, hinv', hgray', fun i hi => ?_⟩
      rcases List.mem_cons.1 hi with h' | hi
      · exact h' ▸ hmono hvis
      · exact hmem' i hi
    · simp only [dcLoop, if_neg hvis]
      have hcount : (U \ st.visited.toFinset).card < fuel :=
        lt_of_le_of_lt (Finset.card_le_card (Finset.sdiff_subset)) hfuel
      have hpre : VisitPre edges U fuel nid st :=
        ⟨hids nid (List.mem_cons_self _ _), hvis, hcount, hinv, by rw [hgray]; simp⟩
      have hpost := dcVisit_spec edges U hU fuel nid st hpre
      cases hres : dcVisit edges fuel nid st with
      | mk res st2 =>
        rw [hres] at hpost
        obtain ⟨⟨hmono, hnidv⟩, hnone1, hsome1⟩ := hpost
        cases res with
        | some c =>
          simp only []
          exact ⟨fun r _ => hsome1 c rfl, fun h => by simp at h⟩
        | none =>
          simp only []
          obtain ⟨hgray2, hinv2, _⟩ := hnone1 rfl
          have hgray2' : st2.gray = [] := by rw [hgray2, hgray]
          obtain ⟨hsome, hnone⟩ :=
            ih st2 hinv2 hgray2' (fun i hi => hids i (List.mem_cons_of_mem _ hi))
          refine ⟨hsome, fun h => ?_⟩
          obtain ⟨st', hmono', hinv', hgray', hmem'⟩ := hnone h
          refine ⟨st', fun x hx => hmono' (hmono hx), hinv', hgray', fun i hi => ?_⟩
          rcases List.mem_cons.1 hi with h' | hi
          · exact h' ▸ hmono' hnidv
          · exact hmem' i hi

theorem step_target_mem_allIds {nodes : List WorkflowNode} {edges : List WorkflowEdge}
    {x y : String} (h : StepRel edges x y) : y ∈ (allIds nodes edges).toFinset := by
  rw [List.mem_toFinset]
  unfold allIds edgeIds
  simp only [StepRel, stepB, List.any_eq_true, Bool.and_eq_true, decide_eq_true_eq] at h
  obtain ⟨e, he, _, ht⟩ := h
  exact List.mem_append.2 (Or.inr (List.mem_append.2 (Or.inr (List.mem_map.2 ⟨e, he, ht⟩))))

/-- Soundness of `detectCycles`: a reported cycle means the edge set really
contains a directed cycle. -/
theorem detectCycles_sound (nodes : List WorkflowNode) (edges : List WorkflowEdge)
    (h : (detectCycles nodes edges).hasCycle = true) : ∃ v, CycleAt edges v := by
  unfold detectCycles at h
  set U := (allIds nodes edges).toFinset with hUdef
  have hU : ∀ x y, StepRel edges x y → y ∈ U := fun _ _ hs => step_target_mem_allIds hs
  have hfuel : U.card < (allIds nodes edges).length + 1 :=
    lt_of_le_of_lt (List.toFinset_card_le _) (by omega)
  have hinv0 : DetInv edges ⟨[], [], []⟩ := ⟨by simp, by simp, by simp⟩
  obtain ⟨hsome, _⟩ := dcLoop_spec edges U hU _ hfuel (nodes.map (fun n => n.id))
    ⟨[], [], []⟩ hinv0 rfl
    (fun i hi => by
      rw [List.mem_toFinset]
      exact List.mem_append.2 (Or.inl hi))
  cases hres : dcLoop edges ((allIds nodes edges).length + 1) (nodes.map (fun n => n.id))
      ⟨[], [], []⟩ with
  | none => rw [hres] at h; simp at h
  | some r => exact hsome r hres

/-- Completeness of `detectCycles`: if no cycle is reported, then no cycle is
reachable from any supplied node. -/
theorem detectCycles_complete (nodes : List WorkflowNode) (edges : List WorkflowEdge)
    (h : (detectCycles nodes edges).hasCycle = false) :
    ∀ n ∈ nodes, ∀ v, Reaches edges n.id v → ¬ CycleAt edges v := by
  unfold detectCycles at h
  set U := (allIds nodes edges).toFinset with hUdef
  have hU : ∀ x y, StepRel edges x y → y ∈ U := fun _ _ hs => step_target_mem_allIds hs
  have hfuel : U.card < (allIds nodes edges).length + 1 :=
    lt_of_le_of_lt (List.toFinset_card_le _) (by omega)
  have hinv0 : DetInv edges ⟨[], [], []⟩ := ⟨by simp, by simp, by simp⟩
  obtain ⟨_, hnone⟩ := dcLoop_spec edges U hU _ hfuel (nodes.map (fun n => n.id))
    ⟨[], [], []⟩ hinv0 rfl
    (fun i hi => by
      rw [List.mem_toFinset]
      exact List.mem_append.2 (Or.inl hi))
  cases hres : dcLoop edges ((allIds nodes edges).length + 1) (nodes.map (fun n => n.id))
      ⟨[], [], []⟩ with
  | some r => rw [hres] at h; simp at h
  | none =>
    obtain ⟨st', _, hinv', hgray', hmem'⟩ := hnone hres
    intro n hn v hv
    have hnv : n.id ∈ st'.visited := hmem' n.id (List.mem_map.2 ⟨n, hn, rfl⟩)
    have hng : n.id ∉ st'.gray := by rw [hgray']; simp
    exact hinv'.blackSafe n.id hnv hng v hv

/-- Result type of `validateWorkflow`. -/
structure ValidationResult where
  valid : Bool
  errors : List String
  warnings : List String
  deriving DecidableEq, Repr

/-- Label lookup for cycle-path diagnostics:
`nodes.find(...)?.data.label || nodeId`. -/
def cycleLabel (nodes : List WorkflowNode) (nodeId : String) : String :=
  match nodes.find? (fun n => decide (n.id = nodeId)) with
  | some n => if n.data.label = "" then nodeId else n.data.label
  | none => nodeId

/-- `validateWorkflow` of `src/utils/validation.ts`: whole-graph readiness
check producing errors and warnings in source push order. -/
def validateWorkflow (nodes : List WorkflowNode) (edges : List WorkflowEdge) :
    ValidationResult :=
  if nodes.isEmpty then
    ⟨false, ["Workflow is empty. Add at least a Start and End node."], []⟩
  else
    let startNodes := nodes.filter (fun n => decide (n.data.nodeType = NodeType.start))
    let endNodes := nodes.filter (fun n => decide (n.data.nodeType = NodeType.end_))
    let startErrors :=
      if startNodes.isEmpty then ["Workflow must have at least one Start node"] else []
    let endWarnings :=
      if endNodes.isEmpty then
        ["Workflow has no End node. Execution will stop after the last connected node."]
      else []
    let cycleResult := detectCycles nodes edges
    let cycleErrors :=
      if cycleResult.hasCycle then
        ["Infinite loop detected: " ++
          joinSep " → " (cycleResult.cyclePath.map (cycleLabel nodes))]
      else []
    let startOutWarnings := startNodes.filterMap (fun n =>
      if edges.any (fun e => decide (e.source = n.id)) then none
      else some ("Start node \"" ++ n.data.label ++ "\" has no outgoing connections"))
    let endInWarnings := endNodes.filterMap (fun n =>
      if edges.any (fun e => decide (e.target = n.id)) then none
      else some ("End node \"" ++ n.data.label ++ "\" has no incoming connections"))
    let otherNodes := nodes.filter (fun n =>
      decide (n.data.nodeType ≠ NodeType.start) && decide (n.data.nodeType ≠ NodeType.end_))
    let otherWarnings := otherNodes.filterMap (fun n =>
      let hasIncoming := edges.any (fun e => decide (e.target = n.id))
      let hasOutgoing := edges.any (fun e => decide (e.source = n.id))
      if !hasIncoming && !hasOutgoing then
        some ("Node \"" ++ n.data.label ++ "\" is not connected to the workflow")
      else if !hasIncoming then
        some ("Node \"" ++ n.data.label ++ "\" has no incoming connections")
      else if !hasOutgoing then
        some ("Node \"" ++ n.data.label ++ "\" has no outgoing connections")
      else none)
    let startConfigWarnings := startNodes.filterMap (fun n =>
      match n.data.config with
      | .start _ => none
      | _ => some ("Start node \"" ++ n.data.label ++ "\" has invalid payload configuration"))
    let errors := startErrors ++ cycleErrors
    let warnings :=
      endWarnings ++ startOutWarnings ++ endInWarnings ++ otherWarnings ++ startConfigWarnings
    ⟨errors.isEmpty, errors, warnings⟩

/-- Log entry status values. -/
inductive LogStatus where
  | success
  | error
  | skipped
  deriving DecidableEq, Repr

/-- `ExecutionLogEntry` of `src/types/workflow.ts` (wall-clock timestamps are
not modelled and fixed to 0). -/
structure ExecutionLogEntry where
  nodeId : String
  nodeName : String
  nodeType : NodeType
  input : JSRec
  output : JSRec
  timestamp : Nat := 0
  status : LogStatus
  message : Option String := none
  deriving DecidableEq, Repr

/-- The `append`/`prepend` operand: `config.value || ''` followed by string
concatenation (string coercion of a truthy operand). -/
def appendOperand (value : Option JSVal) : String :=
  match value with
  | none => ""
  | some v => if jsFalsy v then "" else jsToString v

/-- The `multiply` operand: `Number(config.value) || 1`. -/
def multiplyOperand (value : Option JSVal) : JSNum :=
  match (match value with | none => JSNum.nan | some v => toNumber v) with
  | .nan => .int 1
  | .int c => if c = 0 then .int 1 else .int c

/-- The `add` operand: `Number(config.value) || 0`. -/
def addOperand (value : Option JSVal) : JSNum :=
  match (match value with | none => JSNum.nan | some v => toNumber v) with
  | .nan => .int 0
  | .int c => .int c

/-- The condition evaluation switch of `executeNode`. -/
def evalCondition (operator : ConditionOperator) (fieldValue value : JSVal) : Bool :=
  match operator with
  | .equals => jsStrictEq fieldValue value
  | .notEquals => !jsStrictEq fieldValue value
  | .contains => jsIncludes (jsToString fieldValue) (jsToString value)
  | .greaterThan => jsGt (toNumber fieldValue) (toNumber value)
  | .lessThan => jsLt (toNumber fieldValue) (toNumber value)
  | .greaterThanOrEqual => jsGe (toNumber fieldValue) (toNumber value)
  | .lessThanOrEqual => jsLe (toNumber fieldValue) (toNumber value)
  | .isEmpty => jsFalsy fieldValue || jsStrictEq fieldValue (.str "")
  | .isNotEmpty => !jsFalsy fieldValue && !jsStrictEq fieldValue (.str "")
  | .isEven =>
    match fieldValue with
    | .num (.int n) => decide (n % 2 = 0)
    | _ => false
  | .isOdd =>
    match fieldValue with
    | .num (.int n) => decide (n % 2 ≠ 0)
    | .num .nan => true
    | _ => false
  | .isDivisibleBy =>
    match fieldValue with
    | .num fv =>
      match toNumber value with
      | .nan => false
      | .int d =>
        if d = 0 then false
        else match fv with
          | .int a => decide (a % d = 0)
          | .nan => false
    | _ => false

/-- The transform switch of `executeNode`: output record for one operation. -/
def applyTransform (operation : TransformOperation) (field : String)
    (value : Option JSVal) (inputData : JSRec) : JSRec :=
  let fieldValue := getField inputData field
  match operation with
  | .uppercase =>
    match fieldValue with
    | .str s => setField inputData field (.str (jsToUpper s))
    | _ => inputData
  | .lowercase =>
    match fieldValue with
    | .str s => setField inputData field (.str (jsToLower s))
    | _ => inputData
  | .append =>
    match fieldValue with
    | .str s => setField inputData field (.str (s ++ appendOperand value))
    | _ => inputData
  | .prepend =>
    match fieldValue with
    | .str s => setField inputData field (.str (appendOperand value ++ s))
    | _ => inputData
  | .multiply =>
    match fieldValue with
    | .num x => setField inputData field (.num (jsMul x (multiplyOperand value)))
    | _ => inputData
  | .add =>
    match fieldValue with
    | .num x => setField inputData field (.num (jsAdd x (addOperand value)))
    | _ => inputData
  | .replace =>
    setField inputData field (match value with | none => .undef | some v => v)

/-- `executeNode` of `src/composables/useWorkflowExecution.ts`: the pure
per-node semantics `(node, inputData) -> (outputData, status, message)`.
On the modelled value domain no case throws, so the catch branch of the
source is unreachable and the status is always `success`.  A node whose
`config` variant disagrees with its `nodeType` behaves as the JS does on the
missing fields (`{...undefined}` is `{}`; an undefined operation or operator
matches no switch case; the message interpolates the string `undefined`). -/
def executeNode (node : WorkflowNode) (inputData : JSRec) :
    JSRec × LogStatus × Option String :=
  match node.data.nodeType with
  | .start =>
    match node.data.config with
    | .start payload => (payload, .success, some "Started workflow execution")
    | _ => ([], .success, some "Started workflow execution")
  | .transform =>
    match node.data.config with
    | .transform operation field value =>
      (applyTransform operation field value inputData, .success,
        some ("Applied " ++ operation.asString ++ " to " ++ field))
    | _ => (inputData, .success, some "Applied undefined to undefined")
  | .condition =>
    match node.data.config with
    | .condition field operator value =>
      let conditionMet := evalCondition operator (getField inputData field) value
      (setField inputData "_conditionMet" (.bool conditionMet), .success,
        some ("Condition " ++ field ++ " " ++ operator.asString ++ " " ++
          (if jsFalsy value then "" else jsToString value) ++ ": " ++
          (if conditionMet then "true" else "false")))
    | _ =>
      (setField inputData "_conditionMet" (.bool false), .success,
        some "Condition undefined undefined : false")
  | .end_ => (inputData, .success, some "Workflow execution completed")

/-- A work item of the iterative traversal queue of `executeFromNode`. -/
structure QueueItem where
  node : WorkflowNode
  inputData : JSRec
  visited : List String
  deriving DecidableEq, Repr

/-- The runtime cycle-guard message of `executeFromNode`. -/
def cycleMsg : String := "Cycle detected - node already visited"

/-- Build the log entry for one executed node. -/
def mkLogEntry (node : WorkflowNode) (input output : JSRec) (status : LogStatus)
    (message : Option String) : ExecutionLogEntry :=
  { nodeId := node.id, nodeName := node.data.label, nodeType := node.data.nodeType,
    input := input, output := output, timestamp := 0, status := status,
    message := message }

/-- The successor-enqueueing step of `executeFromNode`: for every adjacency
target that resolves to a node, push a work item, except that a `Condition`
source consults the specific edge's `sourceHandle` against the (truthiness of
the) `_conditionMet` marker. -/
def execSuccessors (edges : List WorkflowEdge) (nodes : List WorkflowNode)
    (cur : WorkflowNode) (out : JSRec) (newVisited : List String) : List QueueItem :=
  (adj edges cur.id).filterMap (fun nextId =>
    match nodes.find? (fun n => decide (n.id = nextId)) with
    | none => none
    | some nextNode =>
      if cur.data.nodeType = NodeType.condition then
        let conditionMet := getField out "_conditionMet"
        match edges.find? (fun e =>
            decide (e.source = cur.id) && decide (e.target = nextId)) with
        | some edge =>
          if edge.sourceHandle = some "true" ∧ jsFalsy conditionMet = true then none
          else if edge.sourceHandle = some "false" ∧ jsFalsy conditionMet = false then none
          else some ⟨nextNode, out, newVisited⟩
        | none => some ⟨nextNode, out, newVisited⟩
      else some ⟨nextNode, out, newVisited⟩)

/-- The `while (queue.length > 0)` loop of `executeFromNode`, producing the
stream of log entries it emits (the source appends each entry via `addLog`;
the log is never read during the run, so the final log is the fold of
`addLog` over this stream — see `executeRun`).  The JS loop terminates on
every input (each enqueued item strictly grows its path-visited set, which is
bounded by the node list); the fuel is an embedding device, and the
properties proved below hold for every fuel. -/
def execLoopEntries (edges : List WorkflowEdge) (nodes : List WorkflowNode) :
    Nat → List QueueItem → List ExecutionLogEntry
  | _, [] => []
  | 0, _ :: _ => []
  | fuel + 1, item :: queue =>
    if item.node.id ∈ item.visited then
      mkLogEntry item.node item.inputData [] .error (some cycleMsg) ::
        execLoopEntries edges nodes fuel queue
    else
      let r := executeNode item.node item.inputData
      let entry := mkLogEntry item.node item.inputData r.1 r.2.1 r.2.2
      if r.2.1 = LogStatus.error then
        entry :: execLoopEntries edges nodes fuel queue
      else
        entry :: execLoopEntries edges nodes fuel
          (queue ++ execSuccessors edges nodes item.node r.1 (item.node.id :: item.visited))

/-- A system-level log entry (validation warnings and errors). -/
def systemEntry (status : LogStatus) (message : String) : ExecutionLogEntry :=
  { nodeId := "system", nodeName := "System", nodeType := NodeType.start,
    input := [], output := [], timestamp := 0, status := status,
    message := some message }

/-- `(startNode.data.config as StartNodeConfig).payload`. -/
def startPayload (node : WorkflowNode) : JSRec :=
  match node.data.config with
  | .start payload => payload
  | _ => []

/-- Fuel bound for one traversal: the work items form a tree of depth at most
`nodes.length + 1` (each enqueued child strictly grows the path-visited set
with ids of `nodes`) and branching at most `edges.length`. -/
def execFuel (nodes : List WorkflowNode) (edges : List WorkflowEdge) : Nat :=
  (edges.length + 1) ^ (nodes.length + 2)

/-- `execute` of `src/composables/useWorkflowExecution.ts`, as the stream of
log entries it appends: validation warnings (as skipped system entries), then
either the validation errors (as error system entries, stopping the run) or
the traversal entries of every Start node in supply order. -/
def executeEntries (nodes : List WorkflowNode) (edges : List WorkflowEdge) :
    List ExecutionLogEntry :=
  let validation := validateWorkflow nodes edges
  let warnEntries := validation.warnings.map (fun w =>
    systemEntry .skipped ("⚠️ Warning: " ++ w))
  if validation.valid = false then
    warnEntries ++ validation.errors.map (fun e => systemEntry .error e)
  else
    let startNodes := nodes.filter (fun n => decide (n.data.nodeType = NodeType.start))
    if startNodes.isEmpty then
      warnEntries ++ [systemEntry .error "No start node found in workflow"]
    else
      warnEntries ++ startNodes.foldl (fun acc sn =>
        acc ++ execLoopEntries edges nodes (execFuel nodes edges)
          [⟨sn, startPayload sn, []⟩]) []

/-- `addLog` of `src/composables/useWorkflowExecution.ts`: push the entry,
then cap with `slice(-maxLogEntries)` when over the limit (JS `slice(-0)`
is `slice(0)`, i.e. a cap of 0 does not actually evict). -/
def addLog (maxLogEntries : Nat) (logs : List ExecutionLogEntry)
    (entry : ExecutionLogEntry) : List ExecutionLogEntry :=
  let logs' := logs ++ [entry]
  if maxLogEntries < logs'.length then
    if maxLogEntries = 0 then logs'
    else logs'.drop (logs'.length - maxLogEntries)
  else logs'

/-- The final `executionLogs` after a run of `execute`: every produced entry
is appended through `addLog` in order, and the log is not read during the
run, so the final log is the fold of `addLog` over the entry stream. -/
def executeRun (maxLogEntries : Nat) (nodes : List WorkflowNode)
    (edges : List WorkflowEdge) : List ExecutionLogEntry :=
  (executeEntries nodes edges).foldl (addLog maxLogEntries) []

/-- Viewport of the canvas (opaque to the engine; zoom modelled as Int). -/
structure Viewport where
  x : Int
  y : Int
  zoom : Int
  deriving DecidableEq, Repr

/-- `WorkflowState` of `src/types/workflow.ts`: the export/import document. -/
structure WorkflowState where
  nodes : List WorkflowNode
  edges : List WorkflowEdge
  viewport : Option Viewport := none
  deriving DecidableEq, Repr

/-- The graph-relevant state of the `useWorkflowStore` Pinia store. -/
structure StoreState where
  nodes : List WorkflowNode
  edges : List WorkflowEdge
  viewport : Viewport
  deriving DecidableEq, Repr

/-- The initial (empty) store state. -/
def initialState : StoreState := ⟨[], [], ⟨0, 0, 1⟩⟩

/-- `getDefaultConfig` of `src/stores/workflow.ts`. -/
def getDefaultConfig : NodeType → NodeConfig
  | .start => .start [("message", .str "Hello World")]
  | .transform => .transform .uppercase "message" (some (.str ""))
  | .condition => .condition "message" .equals (.str "")
  | .end_ => .end_ "End"

/-- `getNodeLabel` of `src/utils/nodeConfig.ts`. -/
def getNodeLabel : NodeType → String
  | .start => "Start"
  | .transform => "Transform"
  | .condition => "If-Else"
  | .end_ => "End"

/-- The node built by `addNode`.  `generateId` returns
`node_${Date.now()}_${random}`; the nondeterministic suffix is supplied as
`seed`, so ids are always of the form `node_...` (in particular nonempty). -/
def mkNewNode (seed : String) (type : NodeType) (position : Int × Int) : WorkflowNode :=
  { id := "node_" ++ seed, type := type, position := position,
    data := { label := getNodeLabel type, config := getDefaultConfig type,
              nodeType := type } }

/-- Result of the store's `addEdge` (`{ success: boolean; error?: string }`). -/
structure AddEdgeResult where
  success : Bool
  error : Option String := none
  deriving DecidableEq, Repr

/-- `addEdge` of `src/stores/workflow.ts`: resolve endpoints, validate with
the cycle check, and either push the new edge or leave the state unchanged. -/
def addEdgeStore (st : StoreState) (source target : String)
    (sourceHandle targetHandle : Option String) : AddEdgeResult × StoreState :=
  match st.nodes.find? (fun n => decide (n.id = source)),
      st.nodes.find? (fun n => decide (n.id = target)) with
  | some sourceNode, some targetNode =>
    let validation := isValidConnectionWithCycleCheck sourceNode targetNode st.edges
    if validation.valid then
      let edge : WorkflowEdge :=
        { id := "edge_" ++ source ++ "_" ++ target, source := source, target := target,
          sourceHandle := sourceHandle, targetHandle := targetHandle, animated := true }
      (⟨true, none⟩, { st with edges := st.edges ++ [edge] })
    else
      (⟨false, validation.reason⟩, st)
  | _, _ => (⟨false, some "Source or target node not found"⟩, st)

/-- Result of `validateImportedWorkflow`. -/
structure ImportValidation where
  valid : Bool
  errors : List String
  deriving DecidableEq, Repr

/-- `validateImportedWorkflow` of `src/utils/validation.ts`, on the typed
model.  The checks on `type`, `position`, `data.nodeType` and the
arrays-shape of the document cannot fail on a typed `WorkflowState` (the
model always carries a valid node type, numeric position and data payload),
so only the falsy-field checks (`!node.id`, `!edge.id`, `!edge.source`,
`!edge.target` — empty strings) and the dangling-reference checks remain. -/
def validateImportedWorkflow (w : WorkflowState) : ImportValidation :=
  let nodeErrors := w.nodes.enum.flatMap (fun p =>
    if p.2.id = "" then
      ["Node at index " ++ toString p.1 ++ " is missing \"id\" field"]
    else [])
  let edgeFieldErrors := w.edges.enum.flatMap (fun p =>
    (if p.2.id = "" then
      ["Edge at index " ++ toString p.1 ++ " is missing \"id\" field"]
    else []) ++
    (if p.2.source = "" then
      ["Edge at index " ++ toString p.1 ++ " is missing \"source\" field"]
    else []) ++
    (if p.2.target = "" then
      ["Edge at index " ++ toString p.1 ++ " is missing \"target\" field"]
    else []))
  let nodeIds := w.nodes.map (fun n => n.id)
  let edgeRefErrors := w.edges.flatMap (fun e =>
    (if e.source ≠ "" ∧ e.source ∉ nodeIds then
      ["Edge \"" ++ e.id ++ "\" references non-existent source node \"" ++
        e.source ++ "\""]
    else []) ++
    (if e.target ≠ "" ∧ e.target ∉ nodeIds then
      ["Edge \"" ++ e.id ++ "\" references non-existent target node \"" ++
        e.target ++ "\""]
    else []))
  let errors := nodeErrors ++ edgeFieldErrors ++ edgeRefErrors
  ⟨errors.isEmpty, errors⟩

/-- `exportWorkflow` of `src/stores/workflow.ts`.  The
`JSON.parse(JSON.stringify(...))` deep clone is the identity on the modelled
(pure, primitive-valued) state. -/
def exportWorkflow (st : StoreState) : WorkflowState :=
  ⟨st.nodes, st.edges, some st.viewport⟩

/-- Result of the store's `importWorkflow`. -/
structure ImportResult where
  success : Bool
  errors : List String
  deriving DecidableEq, Repr

/-- `importWorkflow` of `src/stores/workflow.ts`: validate, then replace the
graph (and the viewport when the document carries one). -/
def importWorkflowStore (st : StoreState) (w : WorkflowState) :
    ImportResult × StoreState :=
  let validation := validateImportedWorkflow w
  if validation.valid = false then
    (⟨false, validation.errors⟩, st)
  else
    (⟨true, []⟩,
      { st with
        nodes := w.nodes,
        edges := w.edges,
        viewport := (match w.viewport with | some v => v | none => st.viewport) })

/-- Replace the first node with the given id (the store's
`nodes.value.find(...)` followed by a field mutation). -/
def updateFirst (nodes : List WorkflowNode) (nodeId : String)
    (f : WorkflowNode → WorkflowNode) : List WorkflowNode :=
  match nodes with
  | [] => []
  | n :: rest =>
    if n.id = nodeId then f n :: rest else n :: updateFirst rest nodeId f

/-- The store's graph mutation operations.  `updateNodeConfig` carries the
merged config (the source merges a partial config into the existing one; the
claims do not depend on the merge itself, only on the resulting config). -/
inductive Op where
  | addNode (seed : String) (type : NodeType) (position : Int × Int)
  | addEdge (source target : String) (sourceHandle targetHandle : Option String)
  | removeNode (nodeId : String)
  | removeEdge (edgeId : String)
  | updateNodePosition (nodeId : String) (position : Int × Int)
  | updateNodeLabel (nodeId : String) (label : String)
  | updateNodeConfig (nodeId : String) (config : NodeConfig)
  | clearWorkflow
  | importWorkflow (state : WorkflowState)
  deriving DecidableEq, Repr

/-- Whether an operation is one of the four basic graph mutations
(addNode / addEdge / removeNode / removeEdge). -/
def Op.isBasic : Op → Bool
  | .addNode _ _ _ => true
  | .addEdge _ _ _ _ => true
  | .removeNode _ => true
  | .removeEdge _ => true
  | _ => false

/-- One store mutation, as implemented in `src/stores/workflow.ts`. -/
def applyOp (st : StoreState) : Op → StoreState
  | .addNode seed type position =>
    { st with nodes := st.nodes ++ [mkNewNode seed type position] }
  | .addEdge source target sourceHandle targetHandle =>
    (addEdgeStore st source target sourceHandle targetHandle).2
  | .removeNode nodeId =>
    { st with
      nodes := st.nodes.filter (fun n => decide (n.id ≠ nodeId)),
      edges := st.edges.filter (fun e =>
        decide (e.source ≠ nodeId) && decide (e.target ≠ nodeId)) }
  | .removeEdge edgeId =>
    { st with edges := st.edges.filter (fun e => decide (e.id ≠ edgeId)) }
  | .updateNodePosition nodeId position =>
    { st with nodes := updateFirst st.nodes nodeId (fun n =>
        { n with position := position }) }
  | .updateNodeLabel nodeId label =>
    { st with nodes := updateFirst st.nodes nodeId (fun n =>
        { n with data := { n.data with label := label } }) }
  | .updateNodeConfig nodeId config =>
    { st with nodes := updateFirst st.nodes nodeId (fun n =>
        { n with data := { n.data with config := config } }) }
  | .clearWorkflow => { st with nodes := [], edges := [] }
  | .importWorkflow w => (importWorkflowStore st w).2

/-- Run a sequence of store operations from the empty initial state. -/
def runOps (ops : List Op) : StoreState :=
  ops.foldl applyOp initialState

/-! ### Concrete graphs used by the example-based claims -/

/-- The Start node of the condition-branch example, with payload
`{value: v}`. -/
def c2start (v : Int) : WorkflowNode :=
  { id := "s", type := .start, position := (0, 0),
    data := { label := "Start", config := .start [("value", .num (.int v))],
              nodeType := .start } }

/-- The Condition node `value > 25` of the condition-branch example. -/
def c2cond : WorkflowNode :=
  { id := "c", type := .condition, position := (0, 0),
    data := { label := "If-Else",
              config := .condition "value" .greaterThan (.str "25"),
              nodeType := .condition } }

/-- End node A of the condition-branch example. -/
def c2endA : WorkflowNode :=
  { id := "a", type := .end_, position := (0, 0),
    data := { label := "End A", config := .end_ "End", nodeType := .end_ } }

/-- End node B of the condition-branch example. -/
def c2endB : WorkflowNode :=
  { id := "b", type := .end_, position := (0, 0),
    data := { label := "End B", config := .end_ "End", nodeType := .end_ } }

/-- The node list of the condition-branch example. -/
def c2nodes (v : Int) : List WorkflowNode :=
  [c2start v, c2cond, c2endA, c2endB]

/-- The edges of the condition-branch example: Start to Condition, a
`"true"`-handle edge to End A and a `"false"`-handle edge to End B. -/
def c2edges : List WorkflowEdge :=
  [ { id := "e1", source := "s", target := "c", animated := true },
    { id := "e2", source := "c", target := "a", sourceHandle := some "true",
      animated := true },
    { id := "e3", source := "c", target := "b", sourceHandle := some "false",
      animated := true } ]

/-- The End-only graph of the no-Start example. -/
def c5nodes : List WorkflowNode :=
  [ { id := "e", type := .end_, position := (0, 0),
      data := { label := "End", config := .end_ "End", nodeType := .end_ } } ]

/-- C2: Condition branch selection — for `Start{value:50} → Condition(value > 25)`
with a `"true"` edge to End A and a `"false"` edge to End B, the execution log
contains an entry for End A and no entry at all for End B (not even a skipped
one); with `value:10` the reverse holds. -/
theorem C2_condition_branch_selection :
    ((executeRun 100 (c2nodes 50) c2edges).any
        (fun e => decide (e.nodeId = "a")) = true ∧
      (executeRun 100 (c2nodes 50) c2edges).any
        (fun e => decide (e.nodeId = "b")) = false) ∧
    ((executeRun 100 (c2nodes 10) c2edges).any
        (fun e => decide (e.nodeId = "b")) = true ∧
      (executeRun 100 (c2nodes 10) c2edges).any
        (fun e => decide (e.nodeId = "a")) = false) := by
  decide

/-- C5 counterexample: on the End-only graph, `execute()` does not produce
only a system-level error log entry — the log has two entries and the first
is a `skipped` warning entry (for the unconnected End node), so not every
produced entry has status `error`. -/
theorem C5_counterexample :
    (executeRun 100 c5nodes []).length = 2 ∧
    (executeRun 100 c5nodes []).map (fun e => e.status) =
      [LogStatus.skipped, LogStatus.error] := by
  decide

/-- C5 (amended): for a graph containing only an End node, `validateWorkflow`
returns `valid = false` with an error message mentioning "Start node", and
`execute()` produces only system-level log entries (nodeId `"system"`): one
skipped warning for the unconnected End node followed by one error entry;
no node of the graph gets a log entry. -/
theorem C5_no_start_amended :
    (validateWorkflow c5nodes []).valid = false ∧
    (validateWorkflow c5nodes []).errors.any
      (fun m => jsIncludes m "Start node") = true ∧
    (executeRun 100 c5nodes []).all
      (fun e => decide (e.nodeId = "system")) = true ∧
    (executeRun 100 c5nodes []).map (fun e => e.status) =
      [LogStatus.skipped, LogStatus.error] ∧
    (executeRun 100 c5nodes []).any (fun e => decide (e.nodeId = "e")) = false := by
  decide

/-- C3: Cycle pre-check correctness — `wouldCreateCycle(sourceId, targetId,
edges)` returns true exactly when a directed path from `targetId` to
`sourceId` exists along the edges, i.e. exactly when adding the edge
`source → target` would close a directed cycle. -/
theorem C3_wouldCreateCycle_iff_path (sourceId targetId : String)
    (edges : List WorkflowEdge) :
    wouldCreateCycle sourceId targetId edges = true ↔
      Reaches edges targetId sourceId :=
  wouldCreateCycle_iff_reaches sourceId targetId edges

/-- The concrete multiply-by-0 transform node refuting C4 as stated. -/
def c4node : WorkflowNode :=
  { id := "t", type := .transform, position := (0, 0),
    data := { label := "Transform",
              config := .transform .multiply "value" (some (.num (.int 0))),
              nodeType := .transform } }

/-- The concrete input record `{value: 5}` of the C4 counterexample. -/
def c4input : JSRec := [("value", JSVal.num (.int 5))]

/-- C4 counterexample: with `config.value = 0` (present, and `Number(0)` is
`0`, not NaN) on input `{value: 5}`, the claim as stated predicts the output
field `5 * Number(config.value) = 0`; the code leaves the field at `5`
because `Number(config.value) || 1` treats the falsy `0` as absent. -/
theorem C4_counterexample :
    getField (executeNode c4node c4input).1 "value" = JSVal.num (.int 5) ∧
    getField (executeNode c4node c4input).1 "value" ≠
      JSVal.num (jsMul (.int 5) (toNumber (JSVal.num (.int 0)))) := by
  decide

/-- C4 (amended): for every input record and Transform node configured with
operation `multiply` on field `f`: if `inputData[f]` is a number, the output
sets `f` to that value times `multiplyOperand config.value`, where the
multiplier is `Number(config.value)` unless `config.value` is absent or
`Number(config.value)` is NaN **or 0** (the falsy cases, which include the
operand `0` and the empty string) — in those cases the multiplier is 1; if
`inputData[f]` is not a number the field is left unchanged. -/
theorem C4_transform_multiply_amended (node : WorkflowNode) (field : String)
    (value : Option JSVal) (r : JSRec)
    (hty : node.data.nodeType = NodeType.transform)
    (hcfg : node.data.config = NodeConfig.transform .multiply field value) :
    (∀ x : JSNum, getField r field = JSVal.num x →
      (executeNode node r).1 = setField r field (.num (jsMul x (multiplyOperand value)))) ∧
    ((∀ x : JSNum, getField r field ≠ JSVal.num x) → (executeNode node r).1 = r) ∧
    (∀ w : JSVal, value = some w → toNumber w ≠ JSNum.nan → toNumber w ≠ JSNum.int 0 →
      multiplyOperand value = toNumber w) ∧
    ((value = none ∨ (∃ w, value = some w ∧ toNumber w = JSNum.nan) ∨
        (∃ w, value = some w ∧ toNumber w = JSNum.int 0)) →
      multiplyOperand value = JSNum.int 1) := by
  have hexec : executeNode node r =
      (applyTransform .multiply field value r, .success,
        some ("Applied " ++ TransformOperation.asString .multiply ++ " to " ++ field)) := by
    unfold executeNode
    rw [hty, hcfg]
  refine ⟨?_, ?_, ?_, ?_⟩
  · intro x hx
    rw [hexec]
    unfold applyTransform
    rw [hx]
  · intro hx
    rw [hexec]
    unfold applyTransform
    cases hval : getField r field with
    | num x => exact absurd hval (hx x)
    | str s => rfl
    | bool b => rfl
    | null => rfl
    | undef => rfl
  · intro w hw hnan hzero
    subst hw
    unfold multiplyOperand
    cases htn : toNumber w with
    | nan => exact absurd htn hnan
    | int c =>
      have hc : c ≠ 0 := fun h => hzero (by rw [htn, h])
      simp only []
      rw [htn]
      simp [hc]
  · intro hcase
    rcases hcase with hn | ⟨w, hw, hnan⟩ | ⟨w, hw, hzero⟩
    · rw [hn]; rfl
    · rw [hw]; unfold multiplyOperand; simp only []; rw [hnan]
    · rw [hw]; unfold multiplyOperand; simp only []; rw [hzero]; rfl

/-- C4 witness: multiplying `{value: 5}` by operand `3` produces `{value: 15}`
via the amended rule. -/
theorem C4_witness :
    (executeNode
        { id := "t", type := .transform, position := (0, 0),
          data := { label := "Transform",
                    config := .transform .multiply "value" (some (.num (.int 3))),
                    nodeType := .transform } }
        [("value", JSVal.num (.int 5))]).1 =
      setField [("value", JSVal.num (.int 5))] "value"
        (.num (jsMul (.int 5) (multiplyOperand (some (.num (.int 3)))))) :=
  (C4_transform_multiply_amended _ "value" (some (.num (.int 3)))
      [("value", JSVal.num (.int 5))] rfl rfl).1 (.int 5) (by decide)

theorem isValidConnection_invalid_reason (sn tn : WorkflowNode)
    (edges : List WorkflowEdge) (h : (isValidConnection sn tn edges).valid = false) :
    (isValidConnection sn tn edges).reason.isSome = true := by
  unfold isValidConnection at *
  by_cases h1 : sn.id = tn.id
  · rw [if_pos h1]; rfl
  · rw [if_neg h1] at h ⊢
    by_cases h2 : (edges.any fun e =>
        decide (e.source = sn.id) && decide (e.target = tn.id)) = true
    · rw [if_pos h2]; rfl
    · rw [if_neg h2] at h ⊢
      by_cases h3 : sn.data.nodeType = NodeType.end_
      · rw [if_pos h3]; rfl
      · rw [if_neg h3] at h ⊢
        by_cases h4 : tn.data.nodeType = NodeType.start
        · rw [if_pos h4]; rfl
        · rw [if_neg h4] at h
          simp at h

theorem isValidConnectionWithCycleCheck_invalid_reason (sn tn : WorkflowNode)
    (edges : List WorkflowEdge)
    (h : (isValidConnectionWithCycleCheck sn tn edges).valid = false) :
    (isValidConnectionWithCycleCheck sn tn edges).reason.isSome = true := by
  unfold isValidConnectionWithCycleCheck at *
  by_cases h1 : (isValidConnection sn tn edges).valid = false
  · rw [if_pos h1] at h ⊢
    exact isValidConnection_invalid_reason sn tn edges h
  · rw [if_neg h1] at h ⊢
    by_cases h2 : wouldCreateCycle sn.id tn.id edges
    · rw [if_pos h2]; rfl
    · rw [if_neg h2] at h
      simp at h

/-- C7: Rejected edge atomicity — whenever the store's `addEdge` fails (for
any of the validation reasons or a missing endpoint), it returns
synchronously with `success = false` and some reason string, and the store
state (node list and edge list, indeed the whole state) is exactly what it
was before the call. -/
theorem C7_addEdge_atomicity (st : StoreState) (source target : String)
    (sourceHandle targetHandle : Option String)
    (h : (addEdgeStore st source target sourceHandle targetHandle).1.success = false) :
    (addEdgeStore st source target sourceHandle targetHandle).2 = st ∧
    (addEdgeStore st source target sourceHandle targetHandle).1.error.isSome = true := by
  unfold addEdgeStore at *
  cases hs : st.nodes.find? (fun n => decide (n.id = source)) with
  | none =>
    cases ht : st.nodes.find? (fun n => decide (n.id = target)) with
    | none => exact ⟨rfl, rfl⟩
    | some targetNode => exact ⟨rfl, rfl⟩
  | some sourceNode =>
    cases ht : st.nodes.find? (fun n => decide (n.id = target)) with
    | none => exact ⟨rfl, rfl⟩
    | some targetNode =>
      rw [hs, ht] at h
      simp only [] at h ⊢
      by_cases hv :
          (isValidConnectionWithCycleCheck sourceNode targetNode st.edges).valid = true
      · rw [if_pos hv] at h
        simp at h
      · rw [if_neg hv] at h ⊢
        refine ⟨rfl, ?_⟩
        exact isValidConnectionWithCycleCheck_invalid_reason sourceNode targetNode st.edges
          (by simpa using hv)

/-- C7 witness: a self-loop proposal on a one-node store is rejected with a
reason and leaves the state untouched. -/
theorem C7_witness :
    (addEdgeStore (runOps [Op.addNode "a" NodeType.transform (0, 0)])
        "node_a" "node_a" none none).2 =
      runOps [Op.addNode "a" NodeType.transform (0, 0)] ∧
    (addEdgeStore (runOps [Op.addNode "a" NodeType.transform (0, 0)])
        "node_a" "node_a" none none).1.error.isSome = true :=
  C7_addEdge_atomicity (runOps [Op.addNode "a" NodeType.transform (0, 0)])
    "node_a" "node_a" none none (by decide)

theorem addLog_lastN (maxLogEntries : Nat) (hmax : 1 ≤ maxLogEntries)
    (l : List ExecutionLogEntry) (e : ExecutionLogEntry) :
    addLog maxLogEntries (l.drop (l.length - maxLogEntries)) e =
      (l ++ [e]).drop ((l ++ [e]).length - maxLogEntries) := by
  unfold addLog
  by_cases hk : l.length < maxLogEntries
  · have h0 : l.length - maxLogEntries = 0 := by omega
    rw [h0, List.drop_zero]
    have hlen : (l ++ [e]).length = l.length + 1 := by simp
    have hnot : ¬ maxLogEntries < (l ++ [e]).length := by omega
    rw [if_neg (by simpa using hnot)]
    have h1 : (l ++ [e]).length - maxLogEntries = 0 := by omega
    rw [h1, List.drop_zero]
  · have hk' : maxLogEntries ≤ l.length := by omega
    have hdlen : (l.drop (l.length - maxLogEntries)).length = maxLogEntries := by
      rw [List.length_drop]; omega
    have hcond : maxLogEntries < (l.drop (l.length - maxLogEntries) ++ [e]).length := by
      simp [hdlen]
    rw [if_pos (by simpa using hcond)]
    have hne : ¬ maxLogEntries = 0 := by omega
    rw [if_neg hne]
    have h1 : (l.drop (l.length - maxLogEntries) ++ [e]).length - maxLogEntries = 1 := by
      simp [hdlen]
    rw [h1]
    rw [List.drop_append_of_le_length (by omega : 1 ≤ (l.drop (l.length - maxLogEntries)).length)]
    rw [List.drop_drop]
    have hlen2 : (l ++ [e]).length - maxLogEntries = l.length + 1 - maxLogEntries := by
      simp
    rw [hlen2]
    rw [List.drop_append_of_le_length (by omega : l.length + 1 - maxLogEntries ≤ l.length)]
    have harith : l.length - maxLogEntries + 1 = l.length + 1 - maxLogEntries := by omega
    rw [harith]

theorem foldl_addLog_lastN (maxLogEntries : Nat) (hmax : 1 ≤ maxLogEntries)
    (es : List ExecutionLogEntry) :
    es.foldl (addLog maxLogEntries) [] = es.drop (es.length - maxLogEntries) := by
  induction es using List.reverseRecOn with
  | nil => simp
  | append_singleton l e ih =>
    rw [List.foldl_append, ih]
    simp only [List.foldl_cons, List.foldl_nil]
    exact addLog_lastN maxLogEntries hmax l e

/-- C6: Log bound — for every run of `execute` whose entry stream is longer
than the configured `maxLogEntries` (with the repository's configuration the
cap is 100; any positive cap qualifies), the final log's length equals the
cap, its contents are exactly the most recent entries of the stream (the
oldest evicted first), and at every point during the run — after each
`addLog`, i.e. after folding any prefix of the stream — the log never
exceeds the cap. -/
theorem C6_log_bound (nodes : List WorkflowNode) (edges : List WorkflowEdge)
    (maxLogEntries : Nat) (hmax : 1 ≤ maxLogEntries)
    (hover : maxLogEntries < (executeEntries nodes edges).length) :
    (executeRun maxLogEntries nodes edges).length = maxLogEntries ∧
    executeRun maxLogEntries nodes edges =
      (executeEntries nodes edges).drop
        ((executeEntries nodes edges).length - maxLogEntries) ∧
    ∀ i : Nat,
      (((executeEntries nodes edges).take i).foldl (addLog maxLogEntries) []).length
        ≤ maxLogEntries := by
  refine ⟨?_, foldl_addLog_lastN maxLogEntries hmax _, fun i => ?_⟩
  · rw [executeRun, foldl_addLog_lastN maxLogEntries hmax, List.length_drop]
    omega
  · rw [foldl_addLog_lastN maxLogEntries hmax, List.length_drop]
    omega

/-- C6 witness: on the End-only graph the stream has 2 entries; with cap 1
the final log has length 1. -/
theorem C6_witness : (executeRun 1 c5nodes []).length = 1 :=
  (C6_log_bound c5nodes [] 1 (by decide) (by decide)).1

theorem addEdgeStore_edges_cases (st : StoreState) (source target : String)
    (sh th : Option String) :
    (addEdgeStore st source target sh th).2.edges = st.edges ∨
    (∃ sn tn, st.nodes.find? (fun n => decide (n.id = source)) = some sn ∧
      st.nodes.find? (fun n => decide (n.id = target)) = some tn ∧
      (isValidConnectionWithCycleCheck sn tn st.edges).valid = true ∧
      (addEdgeStore st source target sh th).2.edges =
        st.edges ++
          [{ id := "edge_" ++ source ++ "_" ++ target, source := source,
             target := target, sourceHandle := sh, targetHandle := th,
             animated := true }]) := by
  unfold addEdgeStore
  cases hs : st.nodes.find? (fun n => decide (n.id = source)) with
  | none =>
    cases ht : st.nodes.find? (fun n => decide (n.id = target)) with
    | none => exact Or.inl rfl
    | some tn => exact Or.inl rfl
  | some sn =>
    cases ht : st.nodes.find? (fun n => decide (n.id = target)) with
    | none => exact Or.inl rfl
    | some tn =>
      simp only []
      by_cases hv : (isValidConnectionWithCycleCheck sn tn st.edges).valid = true
      · rw [if_pos hv]
        exact Or.inr ⟨sn, tn, rfl, rfl, hv, rfl⟩
      · rw [if_neg hv]
        exact Or.inl rfl

theorem valid_conn_facts (sn tn : WorkflowNode) (edges : List WorkflowEdge)
    (h : (isValidConnectionWithCycleCheck sn tn edges).valid = true) :
    sn.id ≠ tn.id ∧
    (edges.any fun e => decide (e.source = sn.id) && decide (e.target = tn.id)) = false ∧
    wouldCreateCycle sn.id tn.id edges = false := by
  unfold isValidConnectionWithCycleCheck at h
  by_cases hb : (isValidConnection sn tn edges).valid = false
  · rw [if_pos hb] at h
    rw [hb] at h
    exact absurd h (by decide)
  · rw [if_neg hb] at h
    by_cases hc : wouldCreateCycle sn.id tn.id edges = true
    · rw [if_pos hc] at h
      exact absurd h (by decide)
    · have hbv : (isValidConnection sn tn edges).valid = true := by
        cases hv : (isValidConnection sn tn edges).valid with
        | false => exact absurd hv hb
        | true => rfl
      unfold isValidConnection at hbv
      by_cases h1 : sn.id = tn.id
      · rw [if_pos h1] at hbv
        exact absurd hbv (by decide)
      · rw [if_neg h1] at hbv
        by_cases h2 : (edges.any fun e =>
            decide (e.source = sn.id) && decide (e.target = tn.id)) = true
        · rw [if_pos h2] at hbv
          exact absurd hbv (by decide)
        · exact ⟨h1, by simpa using h2, by simpa using hc⟩

/-- No two edges of the list share a `(source, target)` pair. -/
def EdgePairsDistinct (edges : List WorkflowEdge) : Prop :=
  List.Pairwise (fun e1 e2 => ¬ (e1.source = e2.source ∧ e1.target = e2.target)) edges

theorem applyOp_pairsDistinct (st : StoreState) (op : Op) (hop : op.isBasic = true)
    (h : EdgePairsDistinct st.edges) : EdgePairsDistinct (applyOp st op).edges := by
  cases op with
  | addNode seed ty pos => exact h
  | removeNode nid => exact List.Pairwise.sublist (List.filter_sublist _) h
  | removeEdge eid => exact List.Pairwise.sublist (List.filter_sublist _) h
  | addEdge source target sh th =>
    rcases addEdgeStore_edges_cases st source target sh th with
      hsame | ⟨sn, tn, hsn, htn, hvalid, happ⟩
    · show EdgePairsDistinct (addEdgeStore st source target sh th).2.edges
      rw [hsame]
      exact h
    · show EdgePairsDistinct (addEdgeStore st source target sh th).2.edges
      rw [happ]
      unfold EdgePairsDistinct
      rw [List.pairwise_append]
      refine ⟨h, by simp, ?_⟩
      intro a ha b hb
      simp only [List.mem_singleton] at hb
      subst hb
      obtain ⟨_, hnodup, _⟩ := valid_conn_facts sn tn st.edges hvalid
      have hsid : sn.id = source := by
        have := List.find?_some hsn
        simpa using this
      have htid : tn.id = target := by
        have := List.find?_some htn
        simpa using this
      rintro ⟨habs1, habs2⟩
      have := (List.any_eq_false.1 hnodup) a ha
      apply this
      simp only [Bool.and_eq_true, decide_eq_true_eq]
      exact ⟨by rw [habs1]; exact hsid.symm ▸ rfl, by rw [habs2]; exact htid.symm ▸ rfl⟩
  | updateNodePosition nid pos => exact absurd hop (by simp [Op.isBasic])
  | updateNodeLabel nid label => exact absurd hop (by simp [Op.isBasic])
  | updateNodeConfig nid cfg => exact absurd hop (by simp [Op.isBasic])
  | clearWorkflow => exact absurd hop (by simp [Op.isBasic])
  | importWorkflow w => exact absurd hop (by simp [Op.isBasic])

theorem foldl_pairsDistinct :
    ∀ (ops : List Op) (st : StoreState), ops.all Op.isBasic = true →
      EdgePairsDistinct st.edges → EdgePairsDistinct (ops.foldl applyOp st).edges := by
  intro ops
  induction ops with
  | nil => exact fun st _ h => h
  | cons op rest ih =>
    intro st hall h
    simp only [List.all_cons, Bool.and_eq_true] at hall
    exact ih (applyOp st op) hall.2 (applyOp_pairsDistinct st op hall.1 h)

/-- C10: the duplicate-edge check ignores handles — once an edge `s → t`
exists (whatever its `sourceHandle`), any further proposed `s → t` connection
is rejected with reason "Connection already exists" (the check never reads
the handle); consequently, along any sequence of the four basic graph
mutations, no two edges ever share a `(source, target)` pair, so a Condition
node can never have both its `"true"` and its `"false"` branch routed to the
same target node. -/
theorem C10_duplicate_ignores_handles :
    (∀ (sn tn : WorkflowNode) (edges : List WorkflowEdge),
      sn.id ≠ tn.id →
      (∃ e ∈ edges, e.source = sn.id ∧ e.target = tn.id) →
      isValidConnectionWithCycleCheck sn tn edges =
        ⟨false, some "Connection already exists"⟩) ∧
    (∀ ops : List Op, ops.all Op.isBasic = true →
      ∀ e1 ∈ (runOps ops).edges, ∀ e2 ∈ (runOps ops).edges,
        e1.source = e2.source → e1.target = e2.target → e1 = e2) ∧
    (∀ ops : List Op, ops.all Op.isBasic = true →
      ∀ e1 ∈ (runOps ops).edges, ∀ e2 ∈ (runOps ops).edges,
        e1.sourceHandle = some "true" → e2.sourceHandle = some "false" →
        e1.source = e2.source → e1.target ≠ e2.target) := by
  have hpart1 : ∀ (sn tn : WorkflowNode) (edges : List WorkflowEdge),
      sn.id ≠ tn.id →
      (∃ e ∈ edges, e.source = sn.id ∧ e.target = tn.id) →
      isValidConnectionWithCycleCheck sn tn edges =
        ⟨false, some "Connection already exists"⟩ := by
    intro sn tn edges hne hex
    have hany : (edges.any fun e =>
        decide (e.source = sn.id) && decide (e.target = tn.id)) = true := by
      rw [List.any_eq_true]
      obtain ⟨e, he, h1, h2⟩ := hex
      exact ⟨e, he, by simp [h1, h2]⟩
    have hbasic : isValidConnection sn tn edges =
        ⟨false, some "Connection already exists"⟩ := by
      unfold isValidConnection
      rw [if_neg hne, if_pos hany]
    unfold isValidConnectionWithCycleCheck
    rw [hbasic]
    rfl
  have hpart2 : ∀ ops : List Op, ops.all Op.isBasic = true →
      ∀ e1 ∈ (runOps ops).edges, ∀ e2 ∈ (runOps ops).edges,
        e1.source = e2.source → e1.target = e2.target → e1 = e2 := by
    intro ops hall e1 h1 e2 h2 hsrc htgt
    have hpw : EdgePairsDistinct (runOps ops).edges :=
      foldl_pairsDistinct ops initialState hall (by constructor)
    by_contra hne
    have hsym : Symmetric (fun e1 e2 : WorkflowEdge =>
        ¬ (e1.source = e2.source ∧ e1.target = e2.target)) := by
      intro a b hab ⟨hs, ht⟩
      exact hab ⟨hs.symm, ht.symm⟩
    exact (List.Pairwise.forall hsym hpw h1 h2 hne) ⟨hsrc, htgt⟩
  refine ⟨hpart1, hpart2, ?_⟩
  intro ops hall e1 h1 e2 h2 hh1 hh2 hsrc htgt
  have he : e1 = e2 := hpart2 ops hall e1 h1 e2 h2 hsrc htgt
  rw [he, hh2] at hh1
  exact Option.noConfusion hh1 (fun hstr => by exact absurd hstr (by decide))

/-- C10 witness: with an existing `"true"`-handled edge from `n1` to `n2`, a
new `n1 → n2` proposal is rejected as a duplicate. -/
theorem C10_witness :
    isValidConnectionWithCycleCheck
      { id := "n1", type := .condition, position := (0, 0),
        data := { label := "If-Else", config := .condition "x" .equals (.str ""),
                  nodeType := .condition } }
      { id := "n2", type := .end_, position := (0, 0),
        data := { label := "End", config := .end_ "End", nodeType := .end_ } }
      [{ id := "e", source := "n1", target := "n2", sourceHandle := some "true" }] =
      ⟨false, some "Connection already exists"⟩ :=
  C10_duplicate_ignores_handles.1 _ _ _ (by decide)
    ⟨{ id := "e", source := "n1", target := "n2", sourceHandle := some "true" },
      by simp, rfl, rfl⟩

/-- Well-formedness of a store state, as needed by the import gate:
nonempty node ids and edges with nonempty fields referencing present nodes.
Every state reachable by the store's mutations satisfies this. -/
def WFState (st : StoreState) : Prop :=
  (∀ n ∈ st.nodes, n.id ≠ "") ∧
  (∀ e ∈ st.edges, e.id ≠ "" ∧ e.source ≠ "" ∧ e.target ≠ "" ∧
    e.source ∈ st.nodes.map (fun n => n.id) ∧
    e.target ∈ st.nodes.map (fun n => n.id))

theorem append_left_ne_empty (p s : String) (h : p.length ≠ 0) : p ++ s ≠ "" := by
  intro he
  have hlen := congrArg String.length he
  rw [String.length_append] at hlen
  rw [show ("" : String).length = 0 from rfl] at hlen
  omega

theorem addEdgeStore_nodes (st : StoreState) (source target : String)
    (sh th : Option String) :
    (addEdgeStore st source target sh th).2.nodes = st.nodes := by
  unfold addEdgeStore
  cases hs : st.nodes.find? (fun n => decide (n.id = source)) with
  | none =>
    cases ht : st.nodes.find? (fun n => decide (n.id = target)) with
    | none => rfl
    | some tn => rfl
  | some sn =>
    cases ht : st.nodes.find? (fun n => decide (n.id = target)) with
    | none => rfl
    | some tn =>
      simp only []
      by_cases hv : (isValidConnectionWithCycleCheck sn tn st.edges).valid = true
      · rw [if_pos hv]
      · rw [if_neg hv]

theorem updateFirst_map_id (nodes : List WorkflowNode) (nodeId : String)
    (f : WorkflowNode → WorkflowNode) (hf : ∀ n, (f n).id = n.id) :
    (updateFirst nodes nodeId f).map (fun n => n.id) =
      nodes.map (fun n => n.id) := by
  induction nodes with
  | nil => rfl
  | cons n rest ih =>
    unfold updateFirst
    by_cases h : n.id = nodeId
    · rw [if_pos h]
      simp [hf n]
    · rw [if_neg h]
      simp [ih]

theorem WF_updateFirst (st : StoreState) (nodeId : String)
    (f : WorkflowNode → WorkflowNode) (hf : ∀ n, (f n).id = n.id)
    (h : WFState st) :
    WFState { st with nodes := updateFirst st.nodes nodeId f } := by
  obtain ⟨hn, he⟩ := h
  have hmap := updateFirst_map_id st.nodes nodeId f hf
  constructor
  · intro n hnmem
    have hid : n.id ∈ (updateFirst st.nodes nodeId f).map (fun n => n.id) :=
      List.mem_map.2 ⟨n, hnmem, rfl⟩
    rw [hmap] at hid
    obtain ⟨m, hm, hmid⟩ := List.mem_map.1 hid
    rw [← hmid]
    exact hn m hm
  · intro e hemem
    obtain ⟨h1, h2, h3, h4, h5⟩ := he e hemem
    exact ⟨h1, h2, h3, by simpa [hmap] using h4, by simpa [hmap] using h5⟩

theorem validateImported_valid_facts (w : WorkflowState)
    (hvalid : (validateImportedWorkflow w).valid = true) :
    (∀ n ∈ w.nodes, n.id ≠ "") ∧
    (∀ e ∈ w.edges, e.id ≠ "" ∧ e.source ≠ "" ∧ e.target ≠ "" ∧
      e.source ∈ w.nodes.map (fun n => n.id) ∧
      e.target ∈ w.nodes.map (fun n => n.id)) := by
  unfold validateImportedWorkflow at hvalid
  simp only [List.isEmpty_iff, List.append_eq_nil] at hvalid
  obtain ⟨⟨hnodeErr, hedgeErr⟩, hrefErr⟩ := hvalid
  rw [List.flatMap_eq_nil_iff] at hnodeErr hedgeErr hrefErr
  constructor
  · intro n hn
    obtain ⟨i, hi⟩ := List.mem_iff_getElem?.1 hn
    have hmem : (i, n) ∈ w.nodes.enum := List.mem_enum_iff_getElem?.2 hi
    have := hnodeErr (i, n) hmem
    by_contra hid
    rw [if_pos hid] at this
    exact List.noConfusion this
  · intro e he
    obtain ⟨i, hi⟩ := List.mem_iff_getElem?.1 he
    have hmem : (i, e) ∈ w.edges.enum := List.mem_enum_iff_getElem?.2 hi
    have hf := hedgeErr (i, e) hmem
    rw [List.append_eq_nil, List.append_eq_nil] at hf
    obtain ⟨⟨hfid, hfsrc⟩, hftgt⟩ := hf
    have hr := hrefErr e he
    rw [List.append_eq_nil] at hr
    obtain ⟨hrsrc, hrtgt⟩ := hr
    have hid : e.id ≠ "" := by
      intro hh
      rw [if_pos hh] at hfid
      exact List.noConfusion hfid
    have hsrc : e.source ≠ "" := by
      intro hh
      rw [if_pos hh] at hfsrc
      exact List.noConfusion hfsrc
    have htgt : e.target ≠ "" := by
      intro hh
      rw [if_pos hh] at hftgt
      exact List.noConfusion hftgt
    refine ⟨hid, hsrc, htgt, ?_, ?_⟩
    · by_contra hmemsrc
      rw [if_pos ⟨hsrc, hmemsrc⟩] at hrsrc
      exact List.noConfusion hrsrc
    · by_contra hmemtgt
      rw [if_pos ⟨htgt, hmemtgt⟩] at hrtgt
      exact List.noConfusion hrtgt

theorem applyOp_WF (st : StoreState) (op : Op) (h : WFState st) :
    WFState (applyOp st op) := by
  obtain ⟨hn, he⟩ := h
  cases op with
  | addNode seed ty pos =>
    constructor
    · intro n hnmem
      rcases List.mem_append.1 hnmem with hm | hm
      · exact hn n hm
      · simp only [List.mem_singleton] at hm
        subst hm
        exact append_left_ne_empty "node_" seed (by decide)
    · intro e hemem
      obtain ⟨h1, h2, h3, h4, h5⟩ := he e hemem
      have hsub : ∀ s, s ∈ st.nodes.map (fun n => n.id) →
          s ∈ (st.nodes ++ [mkNewNode seed ty pos]).map (fun n => n.id) := by
        intro s hs
        rw [List.map_append]
        exact List.mem_append.2 (Or.inl hs)
      exact ⟨h1, h2, h3, hsub _ h4, hsub _ h5⟩
  | addEdge source target sh th =>
    have hnodes := addEdgeStore_nodes st source target sh th
    rcases addEdgeStore_edges_cases st source target sh th with
      hsame | ⟨sn, tn, hsn, htn, _, happ⟩
    · constructor
      · intro n hnmem
        rw [show (applyOp st (.addEdge source target sh th)).nodes =
          (addEdgeStore st source target sh th).2.nodes from rfl, hnodes] at hnmem
        exact hn n hnmem
      · intro e hemem
        rw [show (applyOp st (.addEdge source target sh th)).edges =
          (addEdgeStore st source target sh th).2.edges from rfl, hsame] at hemem
        obtain ⟨h1, h2, h3, h4, h5⟩ := he e hemem
        refine ⟨h1, h2, h3, ?_, ?_⟩ <;>
          · rw [show (applyOp st (.addEdge source target sh th)).nodes =
              (addEdgeStore st source target sh th).2.nodes from rfl, hnodes]
            assumption
    · have hsid : sn.id = source := by
        have := List.find?_some hsn
        simpa using this
      have htid : tn.id = target := by
        have := List.find?_some htn
        simpa using this
      have hsnm : sn ∈ st.nodes := List.mem_of_find?_eq_some hsn
      have htnm : tn ∈ st.nodes := List.mem_of_find?_eq_some htn
      constructor
      · intro n hnmem
        rw [show (applyOp st (.addEdge source target sh th)).nodes =
          (addEdgeStore st source target sh th).2.nodes from rfl, hnodes] at hnmem
        exact hn n hnmem
      · intro e hemem
        rw [show (applyOp st (.addEdge source target sh th)).edges =
          (addEdgeStore st source target sh th).2.edges from rfl, happ] at hemem
        rw [show (applyOp st (.addEdge source target sh th)).nodes =
          (addEdgeStore st source target sh th).2.nodes from rfl, hnodes]
        rcases List.mem_append.1 hemem with hm | hm
        · exact he e hm
        · simp only [List.mem_singleton] at hm
          subst hm
          refine ⟨append_left_ne_empty _ _ ?_, ?_, ?_, ?_, ?_⟩
          · rw [String.length_append, String.length_append]
            rw [show ("edge_" : String).length = 5 from rfl,
              show ("_" : String).length = 1 from rfl]
            omega
          · rw [← hsid]; exact hn sn hsnm
          · rw [← htid]; exact hn tn htnm
          · exact List.mem_map.2 ⟨sn, hsnm, hsid⟩
          · exact List.mem_map.2 ⟨tn, htnm, htid⟩
  | removeNode nodeId =>
    constructor
    · intro n hnmem
      exact hn n (List.mem_of_mem_filter hnmem)
    · intro e hemem
      have hkept := List.mem_filter.1 hemem
      obtain ⟨h1, h2, h3, h4, h5⟩ := he e hkept.1
      simp only [Bool.and_eq_true, decide_eq_true_eq] at hkept
      obtain ⟨_, hsne, htne⟩ := hkept
      refine ⟨h1, h2, h3, ?_, ?_⟩
      · obtain ⟨m, hm, hmid⟩ := List.mem_map.1 h4
        refine List.mem_map.2 ⟨m, List.mem_filter.2 ⟨hm, ?_⟩, hmid⟩
        simp only [decide_eq_true_eq]
        rw [hmid]
        exact hsne
      · obtain ⟨m, hm, hmid⟩ := List.mem_map.1 h5
        refine List.mem_map.2 ⟨m, List.mem_filter.2 ⟨hm, ?_⟩, hmid⟩
        simp only [decide_eq_true_eq]
        rw [hmid]
        exact htne
  | removeEdge edgeId =>
    exact ⟨hn, fun e hemem => he e (List.mem_of_mem_filter hemem)⟩
  | updateNodePosition nodeId pos =>
    exact WF_updateFirst st nodeId _ (fun n => rfl) ⟨hn, he⟩
  | updateNodeLabel nodeId label =>
    exact WF_updateFirst st nodeId _ (fun n => rfl) ⟨hn, he⟩
  | updateNodeConfig nodeId cfg =>
    exact WF_updateFirst st nodeId _ (fun n => rfl) ⟨hn, he⟩
  | clearWorkflow =>
    exact ⟨fun n hmem => absurd hmem (List.not_mem_nil n),
      fun e hmem => absurd hmem (List.not_mem_nil e)⟩
  | importWorkflow w =>
    show WFState (importWorkflowStore st w).2
    unfold importWorkflowStore
    by_cases hv : (validateImportedWorkflow w).valid = false
    · rw [if_pos hv]
      exact ⟨hn, he⟩
    · rw [if_neg hv]
      have hv' : (validateImportedWorkflow w).valid = true := by
        cases hb : (validateImportedWorkflow w).valid with
        | false => exact absurd hb hv
        | true => rfl
      obtain ⟨hwn, hwe⟩ := validateImported_valid_facts w hv'
      exact ⟨hwn, hwe⟩

theorem WF_runOps (ops : List Op) : WFState (runOps ops) := by
  have hgen : ∀ (l : List Op) (st : StoreState), WFState st →
      WFState (l.foldl applyOp st) := by
    intro l
    induction l with
    | nil => exact fun st h => h
    | cons op rest ih => exact fun st h => ih (applyOp st op) (applyOp_WF st op h)
  exact hgen ops initialState ⟨by simp [initialState], by simp [initialState]⟩

theorem validateImported_export_of_WF (st : StoreState) (h : WFState st) :
    validateImportedWorkflow (exportWorkflow st) = ⟨true, []⟩ := by
  obtain ⟨hn, he⟩ := h
  unfold validateImportedWorkflow exportWorkflow
  simp only []
  have hnodeErr : (st.nodes.enum.flatMap (fun p =>
      if p.2.id = "" then
        ["Node at index " ++ toString p.1 ++ " is missing \"id\" field"]
      else [])) = [] := by
    rw [List.flatMap_eq_nil_iff]
    intro p hp
    have hmem : p.2 ∈ st.nodes :=
      List.mem_iff_getElem?.2 ⟨p.1, List.mem_enum_iff_getElem?.1 hp⟩
    rw [if_neg (hn p.2 hmem)]
  have hedgeErr : (st.edges.enum.flatMap (fun p =>
      (if p.2.id = "" then
        ["Edge at index " ++ toString p.1 ++ " is missing \"id\" field"]
      else []) ++
      (if p.2.source = "" then
        ["Edge at index " ++ toString p.1 ++ " is missing \"source\" field"]
      else []) ++
      (if p.2.target = "" then
        ["Edge at index " ++ toString p.1 ++ " is missing \"target\" field"]
      else []))) = [] := by
    rw [List.flatMap_eq_nil_iff]
    intro p hp
    have hmem : p.2 ∈ st.edges :=
      List.mem_iff_getElem?.2 ⟨p.1, List.mem_enum_iff_getElem?.1 hp⟩
    obtain ⟨h1, h2, h3, _, _⟩ := he p.2 hmem
    rw [if_neg h1, if_neg h2, if_neg h3]
    rfl
  have hrefErr : (st.edges.flatMap (fun e =>
      (if e.source ≠ "" ∧ e.source ∉ st.nodes.map (fun n => n.id) then
        ["Edge \"" ++ e.id ++ "\" references non-existent source node \"" ++
          e.source ++ "\""]
      else []) ++
      (if e.target ≠ "" ∧ e.target ∉ st.nodes.map (fun n => n.id) then
        ["Edge \"" ++ e.id ++ "\" references non-existent target node \"" ++
          e.target ++ "\""]
      else []))) = [] := by
    rw [List.flatMap_eq_nil_iff]
    intro e hemem
    obtain ⟨_, _, _, h4, h5⟩ := he e hemem
    rw [if_neg (fun hc => hc.2 h4), if_neg (fun hc => hc.2 h5)]
    rfl
  rw [hnodeErr, hedgeErr, hrefErr]
  rfl

/-- C8: Import/export round-trip — for every graph reachable by the store's
mutation operations (including imports of validated documents),
`importWorkflow(exportWorkflow(g))` succeeds and yields a graph structurally
equal to `g`: the same node list (hence the same ids, kinds, configs and
positions) and the same edge list. -/
theorem C8_roundtrip (ops : List Op) :
    (importWorkflowStore (runOps ops) (exportWorkflow (runOps ops))).1.success = true ∧
    (importWorkflowStore (runOps ops) (exportWorkflow (runOps ops))).2.nodes =
      (runOps ops).nodes ∧
    (importWorkflowStore (runOps ops) (exportWorkflow (runOps ops))).2.edges =
      (runOps ops).edges := by
  have hwf := WF_runOps ops
  have hval := validateImported_export_of_WF (runOps ops) hwf
  unfold importWorkflowStore
  rw [hval]
  exact ⟨rfl, rfl, rfl⟩

/-- The edge list contains no directed cycle. -/
def EdgesAcyclic (edges : List WorkflowEdge) : Prop :=
  ∀ v, ¬ CycleAt edges v

theorem stepRel_filter {edges : List WorkflowEdge} {p : WorkflowEdge → Bool}
    {x y : String} (h : StepRel (edges.filter p) x y) : StepRel edges x y := by
  simp only [StepRel, stepB, List.any_eq_true] at h ⊢
  obtain ⟨e, he, hp⟩ := h
  exact ⟨e, List.mem_of_mem_filter he, hp⟩

theorem cycleAt_filter {edges : List WorkflowEdge} {p : WorkflowEdge → Bool}
    {v : String} (h : CycleAt (edges.filter p) v) : CycleAt edges v :=
  Relation.TransGen.mono (fun _ _ hs => stepRel_filter hs) h

theorem stepRel_append_iff {E : List WorkflowEdge} {e : WorkflowEdge} {x y : String} :
    StepRel (E ++ [e]) x y ↔ StepRel E x y ∨ (e.source = x ∧ e.target = y) := by
  simp only [StepRel, stepB, List.any_eq_true, List.mem_append, List.mem_singleton,
    Bool.and_eq_true, decide_eq_true_eq]
  constructor
  · rintro ⟨f, hf | hf, hs, ht⟩
    · exact Or.inl ⟨f, hf, hs, ht⟩
    · subst hf
      exact Or.inr ⟨hs, ht⟩
  · rintro (⟨f, hf, hs, ht⟩ | ⟨hs, ht⟩)
    · exact ⟨f, Or.inl hf, hs, ht⟩
    · exact ⟨e, Or.inr rfl, hs, ht⟩

theorem reaches_append_decompose {E : List WorkflowEdge} {e : WorkflowEdge}
    {a b : String} (h : Reaches (E ++ [e]) a b) :
    Reaches E a b ∨ (Reaches E a e.source ∧ Reaches E e.target b) := by
  induction h using Relation.ReflTransGen.head_induction_on with
  | refl => exact Or.inl Relation.ReflTransGen.refl
  | head hstep _ ih =>
    rcases stepRel_append_iff.1 hstep with hs | ⟨hsrc, htgt⟩
    · rcases ih with h1 | ⟨h2, h3⟩
      · exact Or.inl (Relation.ReflTransGen.head hs h1)
      · exact Or.inr ⟨Relation.ReflTransGen.head hs h2, h3⟩
    · rcases ih with h1 | ⟨h2, h3⟩
      · refine Or.inr ⟨?_, ?_⟩
        · rw [hsrc]
          exact Relation.ReflTransGen.refl
        · rw [htgt]
          exact h1
      · refine Or.inr ⟨?_, h3⟩
        rw [hsrc]
        exact Relation.ReflTransGen.refl

theorem acyclic_append (E : List WorkflowEdge) (e : WorkflowEdge)
    (hac : EdgesAcyclic E) (hnr : ¬ Reaches E e.target e.source) :
    EdgesAcyclic (E ++ [e]) := by
  intro v hcyc
  obtain ⟨w, hstep, hw⟩ := Relation.TransGen.head'_iff.1 hcyc
  rcases stepRel_append_iff.1 hstep with hs | ⟨hsrc, htgt⟩
  · rcases reaches_append_decompose hw with h1 | ⟨h2, h3⟩
    · exact hac v (Relation.TransGen.head' hs h1)
    · exact hnr (Relation.ReflTransGen.trans h3 (Relation.ReflTransGen.head hs h2))
  · rcases reaches_append_decompose hw with h1 | ⟨h2, h3⟩
    · apply hnr
      rw [htgt, hsrc]
      exact h1
    · apply hnr
      rw [htgt]
      exact h2

theorem applyOp_acyclic (st : StoreState) (op : Op) (hop : op.isBasic = true)
    (h : EdgesAcyclic st.edges) : EdgesAcyclic (applyOp st op).edges := by
  cases op with
  | addNode seed ty pos => exact h
  | removeNode nodeId => exact fun v hc => h v (cycleAt_filter hc)
  | removeEdge edgeId => exact fun v hc => h v (cycleAt_filter hc)
  | addEdge source target sh th =>
    rcases addEdgeStore_edges_cases st source target sh th with
      hsame | ⟨sn, tn, hsn, htn, hvalid, happ⟩
    · show EdgesAcyclic (addEdgeStore st source target sh th).2.edges
      rw [hsame]
      exact h
    · show EdgesAcyclic (addEdgeStore st source target sh th).2.edges
      rw [happ]
      obtain ⟨_, _, hwcc⟩ := valid_conn_facts sn tn st.edges hvalid
      have hsid : sn.id = source := by
        have := List.find?_some hsn
        simpa using this
      have htid : tn.id = target := by
        have := List.find?_some htn
        simpa using this
      apply acyclic_append _ _ h
      intro hr
      have : wouldCreateCycle sn.id tn.id st.edges = true := by
        rw [wouldCreateCycle_iff_reaches]
        rw [hsid, htid]
        exact hr
      rw [this] at hwcc
      exact Bool.noConfusion hwcc
  | updateNodePosition nodeId pos => exact absurd hop (by simp [Op.isBasic])
  | updateNodeLabel nodeId label => exact absurd hop (by simp [Op.isBasic])
  | updateNodeConfig nodeId cfg => exact absurd hop (by simp [Op.isBasic])
  | clearWorkflow => exact absurd hop (by simp [Op.isBasic])
  | importWorkflow w => exact absurd hop (by simp [Op.isBasic])

theorem foldl_acyclic :
    ∀ (ops : List Op) (st : StoreState), ops.all Op.isBasic = true →
      EdgesAcyclic st.edges → EdgesAcyclic (ops.foldl applyOp st).edges := by
  intro ops
  induction ops with
  | nil => exact fun st _ h => h
  | cons op rest ih =>
    intro st hall h
    simp only [List.all_cons, Bool.and_eq_true] at hall
    exact ih (applyOp st op) hall.2 (applyOp_acyclic st op hall.1 h)

/-- C1: Acyclicity invariant — starting from the empty graph, after every
sequence of the four basic mutations (addNode / addEdge / removeNode /
removeEdge, each addEdge either succeeding or leaving the graph unchanged),
the edge set contains no directed cycle, and equivalently
`detectCycles(nodes, edges).hasCycle` is `false`. -/
theorem C1_acyclicity_invariant (ops : List Op) (hops : ops.all Op.isBasic = true) :
    EdgesAcyclic (runOps ops).edges ∧
    (detectCycles (runOps ops).nodes (runOps ops).edges).hasCycle = false := by
  have hac : EdgesAcyclic (runOps ops).edges := by
    apply foldl_acyclic ops initialState hops
    intro v hc
    obtain ⟨w, hstep, _⟩ := Relation.TransGen.head'_iff.1 hc
    simp [StepRel, stepB, initialState] at hstep
  refine ⟨hac, ?_⟩
  cases hdc : (detectCycles (runOps ops).nodes (runOps ops).edges).hasCycle with
  | false => rfl
  | true =>
    obtain ⟨v, hv⟩ := detectCycles_sound _ _ hdc
    exact absurd hv (hac v)

/-- C1 witness: a small basic-op sequence (two nodes and one accepted edge)
ends with `detectCycles` reporting no cycle. -/
theorem C1_witness :
    (detectCycles
      (runOps [Op.addNode "a" .start (0, 0), Op.addNode "b" .end_ (0, 0),
        Op.addEdge "node_a" "node_b" none none]).nodes
      (runOps [Op.addNode "a" .start (0, 0), Op.addNode "b" .end_ (0, 0),
        Op.addEdge "node_a" "node_b" none none]).edges).hasCycle = false :=
  (C1_acyclicity_invariant
    [Op.addNode "a" .start (0, 0), Op.addNode "b" .end_ (0, 0),
      Op.addEdge "node_a" "node_b" none none] (by decide)).2

theorem ne_cycleMsg_of_head (s : String) (h : s.data.head? ≠ some 'C') :
    s ≠ cycleMsg := by
  intro he
  apply h
  rw [he]
  rfl

theorem ne_cycleMsg_of_second (s : String) (h : s.data[1]? ≠ some 'y') :
    s ≠ cycleMsg := by
  intro he
  apply h
  rw [he]
  rfl

theorem applied_full_ne_cycleMsg (a b : String) :
    ("Applied " ++ a ++ " to " ++ b) ≠ cycleMsg := by
  apply ne_cycleMsg_of_head
  rw [show ("Applied " ++ a ++ " to " ++ b).data.head? = some 'A' from rfl]
  decide

theorem condition_full_ne_cycleMsg (a b c d : String) :
    ("Condition " ++ a ++ " " ++ b ++ " " ++ c ++ ": " ++ d) ≠ cycleMsg := by
  apply ne_cycleMsg_of_second
  rw [show ("Condition " ++ a ++ " " ++ b ++ " " ++ c ++ ": " ++ d).data[1]?
    = some 'o' from rfl]
  decide

theorem warning_ne_cycleMsg (w : String) : ("⚠️ Warning: " ++ w) ≠ cycleMsg := by
  apply ne_cycleMsg_of_head
  rw [show ("⚠️ Warning: " ++ w).data.head? = some '⚠' from rfl]
  decide

theorem infinite_ne_cycleMsg (x : String) :
    ("Infinite loop detected: " ++ x) ≠ cycleMsg := by
  apply ne_cycleMsg_of_head
  rw [show ("Infinite loop detected: " ++ x).data.head? = some 'I' from rfl]
  decide

theorem executeNode_message_ne (node : WorkflowNode) (input : JSRec) :
    (executeNode node input).2.2 ≠ some cycleMsg := by
  rcases node with ⟨nid, nty, npos, ndata⟩
  rcases ndata with ⟨nlabel, nconfig, nnt⟩
  cases nnt with
  | start =>
    cases nconfig <;> (intro h; injection h with h'; exact absurd h' (by decide))
  | transform =>
    cases nconfig with
    | transform op f v =>
      intro h
      injection h with h'
      exact applied_full_ne_cycleMsg op.asString f h'
    | start p => intro h; injection h with h'; exact absurd h' (by decide)
    | condition f o v => intro h; injection h with h'; exact absurd h' (by decide)
    | end_ l => intro h; injection h with h'; exact absurd h' (by decide)
  | condition =>
    cases nconfig with
    | condition f o v =>
      intro h
      injection h with h'
      exact condition_full_ne_cycleMsg f o.asString _ _ h'
    | start p => intro h; injection h with h'; exact absurd h' (by decide)
    | transform op fl vl => intro h; injection h with h'; exact absurd h' (by decide)
    | end_ l => intro h; injection h with h'; exact absurd h' (by decide)
  | end_ =>
    cases nconfig <;> (intro h; injection h with h'; exact absurd h' (by decide))

theorem validateWorkflow_valid_no_cycle (nodes : List WorkflowNode)
    (edges : List WorkflowEdge) (h : (validateWorkflow nodes edges).valid = true) :
    (detectCycles nodes edges).hasCycle = false := by
  unfold validateWorkflow at h
  by_cases hne : nodes.isEmpty = true
  · rw [if_pos hne] at h
    exact absurd h (by decide)
  · rw [if_neg hne] at h
    simp only [] at h
    cases hdc : (detectCycles nodes edges).hasCycle with
    | false => rfl
    | true =>
      rw [hdc] at h
      simp at h

theorem validateWorkflow_errors_ne (nodes : List WorkflowNode)
    (edges : List WorkflowEdge) :
    ∀ m ∈ (validateWorkflow nodes edges).errors, m ≠ cycleMsg := by
  intro m hm
  unfold validateWorkflow at hm
  by_cases hne : nodes.isEmpty = true
  · rw [if_pos hne] at hm
    simp only [] at hm
    rw [List.mem_singleton] at hm
    subst hm
    decide
  · rw [if_neg hne] at hm
    simp only [] at hm
    rcases List.mem_append.1 hm with h1 | h2
    · by_cases hs : (nodes.filter fun n =>
          decide (n.data.nodeType = NodeType.start)).isEmpty = true
      · rw [if_pos hs] at h1
        rw [List.mem_singleton] at h1
        subst h1
        decide
      · rw [if_neg hs] at h1
        exact absurd h1 (List.not_mem_nil m)
    · by_cases hc : (detectCycles nodes edges).hasCycle = true
      · rw [if_pos hc] at h2
        rw [List.mem_singleton] at h2
        subst h2
        exact infinite_ne_cycleMsg _
      · rw [if_neg hc] at h2
        exact absurd h2 (List.not_mem_nil m)

theorem execSuccessors_facts (edges : List WorkflowEdge) (nodes : List WorkflowNode)
    (cur : WorkflowNode) (out : JSRec) (newVisited : List String) :
    ∀ it ∈ execSuccessors edges nodes cur out newVisited,
      it.node ∈ nodes ∧ it.visited = newVisited ∧ StepRel edges cur.id it.node.id := by
  intro it hit
  unfold execSuccessors at hit
  obtain ⟨nextId, hnext, heq⟩ := List.mem_filterMap.1 hit
  have hstep : StepRel edges cur.id nextId := mem_adj_iff.1 hnext
  simp only [] at heq
  cases hfind : nodes.find? (fun n => decide (n.id = nextId)) with
  | none =>
    rw [hfind] at heq
    simp only [] at heq
    exact Option.noConfusion heq
  | some nextNode =>
    rw [hfind] at heq
    simp only [] at heq
    have hmem : nextNode ∈ nodes := List.mem_of_find?_eq_some hfind
    have hid : nextNode.id = nextId := by simpa using List.find?_some hfind
    have hit2 : it = ⟨nextNode, out, newVisited⟩ := by
      by_cases hcond : cur.data.nodeType = NodeType.condition
      · rw [if_pos hcond] at heq
        cases hfe : edges.find? (fun e =>
            decide (e.source = cur.id) && decide (e.target = nextId)) with
        | none =>
          rw [hfe] at heq
          exact (Option.some.inj heq).symm
        | some edge =>
          rw [hfe] at heq
          simp only [] at heq
          by_cases hb1 : edge.sourceHandle = some "true" ∧
              jsFalsy (getField out "_conditionMet") = true
          · rw [if_pos hb1] at heq
            exact Option.noConfusion heq
          · rw [if_neg hb1] at heq
            by_cases hb2 : edge.sourceHandle = some "false" ∧
                jsFalsy (getField out "_conditionMet") = false
            · rw [if_pos hb2] at heq
              exact Option.noConfusion heq
            · rw [if_neg hb2] at heq
              exact (Option.some.inj heq).symm
      · rw [if_neg hcond] at heq
        exact (Option.some.inj heq).symm
    rw [hit2]
    refine ⟨hmem, rfl, ?_⟩
    show StepRel edges cur.id nextNode.id
    rw [hid]
    exact hstep

theorem execLoop_no_cycleMsg (edges : List WorkflowEdge) (nodes : List WorkflowNode)
    (hdc : (detectCycles nodes edges).hasCycle = false) :
    ∀ (fuel : Nat) (queue : List QueueItem),
      (∀ item ∈ queue, item.node ∈ nodes ∧
        ∀ v ∈ item.visited, Relation.TransGen (StepRel edges) v item.node.id) →
      ∀ e ∈ execLoopEntries edges nodes fuel queue, e.message ≠ some cycleMsg := by
  intro fuel
  induction fuel with
  | zero =>
    intro queue hq e he
    cases queue with
    | nil => simp [execLoopEntries] at he
    | cons a q => simp [execLoopEntries] at he
  | succ fuel ih =>
    intro queue hq e he
    cases queue with
    | nil => simp [execLoopEntries] at he
    | cons item rest =>
      obtain ⟨hnode, hvis⟩ := hq item (List.mem_cons_self _ _)
      by_cases hv : item.node.id ∈ item.visited
      · exact absurd (hvis _ hv)
          (detectCycles_complete nodes edges hdc item.node hnode item.node.id
            Relation.ReflTransGen.refl)
      · simp only [execLoopEntries] at he
        rw [if_neg hv] at he
        by_cases herr : (executeNode item.node item.inputData).2.1 = LogStatus.error
        · rw [if_pos herr] at he
          rcases List.mem_cons.1 he with he1 | he2
          · subst he1
            exact executeNode_message_ne item.node item.inputData
          · exact ih rest (fun it hit => hq it (List.mem_cons_of_mem _ hit)) e he2
        · rw [if_neg herr] at he
          rcases List.mem_cons.1 he with he1 | he2
          · subst he1
            exact executeNode_message_ne item.node item.inputData
          · apply ih _ ?_ e he2
            intro it hit
            rcases List.mem_append.1 hit with h1 | h2
            · exact hq it (List.mem_cons_of_mem _ h1)
            · obtain ⟨hm, hvq, hstep⟩ := execSuccessors_facts edges nodes item.node
                (executeNode item.node item.inputData).1
                (item.node.id :: item.visited) it h2
              refine ⟨hm, ?_⟩
              intro v hvmem
              rw [hvq] at hvmem
              rcases List.mem_cons.1 hvmem with h3 | h4
              · rw [h3]
                exact Relation.TransGen.single hstep
              · exact Relation.TransGen.tail (hvis v h4) hstep

theorem mem_foldl_append {α β : Type} (f : α → List β) :
    ∀ (l : List α) (acc : List β) (x : β),
      x ∈ l.foldl (fun a s => a ++ f s) acc → x ∈ acc ∨ ∃ s ∈ l, x ∈ f s := by
  intro l
  induction l with
  | nil => exact fun acc x h => Or.inl h
  | cons a l ih =>
    intro acc x h
    rcases ih (acc ++ f a) x h with h1 | ⟨s, hs, hx⟩
    · rcases List.mem_append.1 h1 with h2 | h3
      · exact Or.inl h2
      · exact Or.inr ⟨a, List.mem_cons_self _ _, h3⟩
    · exact Or.inr ⟨s, List.mem_cons_of_mem _ hs, hx⟩

theorem executeEntries_no_cycleMsg (nodes : List WorkflowNode)
    (edges : List WorkflowEdge) :
    ∀ e ∈ executeEntries nodes edges, e.message ≠ some cycleMsg := by
  intro e he
  unfold executeEntries at he
  by_cases hvalid : (validateWorkflow nodes edges).valid = false
  · rw [if_pos hvalid] at he
    rcases List.mem_append.1 he with h1 | h2
    · obtain ⟨w, _, heq⟩ := List.mem_map.1 h1
      rw [← heq]
      intro h
      injection h with h'
      exact warning_ne_cycleMsg w h'
    · obtain ⟨m, hm, heq⟩ := List.mem_map.1 h2
      rw [← heq]
      intro h
      injection h with h'
      exact validateWorkflow_errors_ne nodes edges m hm h'
  · rw [if_neg hvalid] at he
    have hvalid' : (validateWorkflow nodes edges).valid = true := by
      cases hb : (validateWorkflow nodes edges).valid with
      | false => exact absurd hb hvalid
      | true => rfl
    have hdc := validateWorkflow_valid_no_cycle nodes edges hvalid'
    simp only [] at he
    by_cases hs : (nodes.filter fun n =>
        decide (n.data.nodeType = NodeType.start)).isEmpty = true
    · rw [if_pos hs] at he
      rcases List.mem_append.1 he with h1 | h2
      · obtain ⟨w, _, heq⟩ := List.mem_map.1 h1
        rw [← heq]
        intro h
        injection h with h'
        exact warning_ne_cycleMsg w h'
      · rw [List.mem_singleton] at h2
        subst h2
        intro h
        injection h with h'
        exact absurd h' (by decide)
    · rw [if_neg hs] at he
      rcases List.mem_append.1 he with h1 | h2
      · obtain ⟨w, _, heq⟩ := List.mem_map.1 h1
        rw [← heq]
        intro h
        injection h with h'
        exact warning_ne_cycleMsg w h'
      · rcases mem_foldl_append _ _ [] e h2 with h3 | ⟨sn, hsn, hx⟩
        · exact absurd h3 (List.not_mem_nil e)
        · apply execLoop_no_cycleMsg edges nodes hdc _ _ ?_ e hx
          intro it hit
          rw [List.mem_singleton] at hit
          subst hit
          exact ⟨List.mem_of_mem_filter hsn,
            fun v hv => absurd hv (List.not_mem_nil v)⟩

theorem mem_foldl_addLog (maxLogEntries : Nat) :
    ∀ (es acc : List ExecutionLogEntry) (e : ExecutionLogEntry),
      e ∈ es.foldl (addLog maxLogEntries) acc → e ∈ acc ∨ e ∈ es := by
  intro es
  induction es with
  | nil => exact fun acc e h => Or.inl h
  | cons a es ih =>
    intro acc e h
    rcases ih _ e h with h1 | h2
    · have hmem : e ∈ acc ++ [a] := by
        unfold addLog at h1
        by_cases hc : maxLogEntries < (acc ++ [a]).length
        · rw [if_pos hc] at h1
          by_cases h0 : maxLogEntries = 0
          · rw [if_pos h0] at h1
            exact h1
          · rw [if_neg h0] at h1
            exact List.mem_of_mem_drop h1
        · rw [if_neg hc] at h1
          exact h1
      rcases List.mem_append.1 hmem with h3 | h4
      · exact Or.inl h3
      · rw [List.mem_singleton] at h4
        exact Or.inr (h4 ▸ List.mem_cons_self _ _)
    · exact Or.inr (List.mem_cons_of_mem _ h2)

/-- C9: the runtime cycle guard is unreachable — for every input
`(nodes, edges)` and every log cap, no entry of the final log of `execute`
carries the message "Cycle detected - node already visited": the traversal
only runs after `validateWorkflow` succeeds, which excludes every cycle
reachable from a supplied node, and the queue only ever holds nodes of the
supplied list whose path-visited sets strictly precede them, so no path can
revisit a node. -/
theorem C9_no_runtime_cycle_log (maxLogEntries : Nat) (nodes : List WorkflowNode)
    (edges : List WorkflowEdge) :
    (executeRun maxLogEntries nodes edges).all
      (fun e => decide (e.message ≠ some cycleMsg)) = true := by
  rw [List.all_eq_true]
  intro e he
  rw [decide_eq_true_eq]
  rcases mem_foldl_addLog maxLogEntries _ [] e he with h1 | h2
  · exact absurd h1 (List.not_mem_nil e)
  · exact executeEntries_no_cycleMsg nodes edges e h2

end WorkflowSpec
